import Mathlib

/-!
Shallow embedding of the HIR-to-MIR name-resolution and lowering pass of the
jaq query-language toolchain (source file: jaq-core/src/mir.rs), together with
theorems settling the specification claims about it.

The embedding follows the Rust source:
* machine integers (usize, isize) become Nat / Int with explicit range checks
  where overflow matters;
* `Vec::push` becomes appending at the end of a `List`;
* fallible operations return `Option` / `Except`;
* the mutable resolver context `Ctx` is threaded explicitly through the
  lowering functions.

The types `parse::Arg`, `parse::Error`, `parse::Def`, and the generic HIR/MIR
expression type `parse::filter::Filter` live in the parser crate, whose source
is not part of this development; they are modelled from the specification of
the parser interface (data-only: name lists, sum types with span annotations).
-/

set_option maxHeartbeats 1000000

namespace Jaq

/-- Modelled from the spec: a span is an opaque byte range attached to each
expression (Rust `core::ops::Range<usize>`); the lowering only copies it. -/
abbrev Span := Nat × Nat

/-- Modelled from the spec: a value with its source span (`parse::Spanned`). -/
abbrev Spanned (α : Type) := α × Span

/-- Modelled from the spec: an error is a span plus a free-text message
(`parse::Error::custom(span, msg)`). -/
abbrev Err := Span × String

/-- Modelled from the spec: a parameter declaration (`parse::Arg`) is either a
value parameter (bound as a variable) or a filter parameter (bound as a
callable sub-filter); `isVar` is true for value parameters. -/
structure Arg where
  name : String
  isVar : Bool
deriving DecidableEq, Repr

/-- Modelled from the spec: `Arg::new_var` makes a value parameter. -/
def Arg.newVar (n : String) : Arg := ⟨n, true⟩

/-- Modelled from the spec: `Arg::get_var` yields the name only for a value
parameter. -/
def Arg.getVar (a : Arg) : Option String := if a.isVar then some a.name else none

/-- Modelled from the spec: `Arg::get_nonvar` yields the name only for a
filter parameter. -/
def Arg.getNonvar (a : Arg) : Option String := if a.isVar then none else some a.name

/-- Modelled from the spec: the binary operator of `parse::filter::BinaryOp`.
Only the pipe with an optional binding name is treated specially by the
lowering; all other operators are passed through and modelled by a tag. -/
inductive BinaryOp where
  | pipe (x : Option String)
  | op (tag : Nat)
deriving DecidableEq, Repr

/-- Modelled from the spec: a path segment is an indexing expression or a
range with optional lower and upper bounds. -/
inductive PathPart (α : Type) where
  | index (i : α)
  | range (lo : Option α) (hi : Option α)
deriving DecidableEq, Repr

/-- Modelled from the spec: the generic expression type
`parse::filter::Filter<C, V, N>`: HIR instantiates calls with names, variables
with names and numbers with their source text; MIR instantiates them with
resolved call targets, de-Bruijn-like positions and parsed numbers.
The `Fold` record `{xs, x, init, f}` is flattened into the constructor, and an
object entry is modelled as a key expression with an optional value
expression. -/
inductive Filter (C V N : Type) : Type where
  | call (c : C) (args : List (Filter C V N × Span))
  | var (v : V)
  | binary (l : Filter C V N × Span) (o : BinaryOp) (r : Filter C V N × Span)
  | fold (typ : Nat) (xs : Filter C V N × Span) (x : String)
      (init : Filter C V N × Span) (f : Filter C V N × Span)
  | id
  | num (n : N)
  | str (s : String)
  | array (a : Option (Filter C V N × Span))
  | object (o : List ((Filter C V N × Span) × Option (Filter C V N × Span)))
  | tryF (f : Filter C V N × Span)
  | neg (f : Filter C V N × Span)
  | recurse
  | ite (ifThens : List ((Filter C V N × Span) × (Filter C V N × Span)))
      (elseF : Filter C V N × Span)
  | path (f : Filter C V N × Span)
      (parts : List (PathPart (Filter C V N × Span) × Bool))

/-- A resolved call target (mir.rs `enum Call`): a defined filter, a filter
parameter of an enclosing definition, or a native filter.  Native handles are
opaque to the pass and modelled by a number. -/
inductive Call where
  | defn (id : Nat)
  | arg (i : Nat)
  | native (h : Nat)
deriving DecidableEq, Repr

/-- Values of Rust type f64 are external to the pass (only produced by the
standard library string-to-float parser and stored); they are modelled
opaquely by the source text of a successfully parsed literal, with a
distinguished value for the literal zero that the code substitutes on a parse
failure. -/
inductive F64 where
  | zero
  | ofLit (s : String)
deriving DecidableEq, Repr

/-- A parsed number (mir.rs `enum Num`): float or machine-size integer. -/
inductive Num where
  | float (f : F64)
  | int (i : Int)
deriving DecidableEq, Repr

/-- The HIR expression type: names everywhere, numbers as text. -/
abbrev HirF := Filter String String String

/-- The MIR expression type: resolved calls, variable positions, parsed
numbers (mir.rs `pub type Filter`). -/
abbrev MirF := Filter Call Nat Num

/-- Decimal digit test used by the modelled Rust string-to-number parsers. -/
def isDigit (c : Char) : Bool := decide ('0' ≤ c) && decide (c ≤ '9')

/-- Numeric value of a list of decimal digits. -/
def digitsToNat (l : List Char) : Nat :=
  l.foldl (fun a c => a * 10 + (c.toNat - ('0').toNat)) 0

/-- Modelled from the spec: Rust `isize::from_str` (with isize taken to be
64 bits): an optional single sign followed by one or more decimal digits,
rejecting values outside the signed 64-bit range. -/
def parseIsize (s : String) : Option Int :=
  let l := s.toList
  let p : Int × List Char :=
    match l with
    | ('+') :: r => (1, r)
    | ('-') :: r => (-1, r)
    | r => (1, r)
  if p.2.isEmpty then none
  else if !(p.2.all isDigit) then none
  else
    let v : Int := p.1 * (digitsToNat p.2 : Int)
    if -(2 ^ 63) ≤ v ∧ v ≤ 2 ^ 63 - 1 then some v else none

/-- Split a character list into its leading decimal digits and the rest. -/
def splitDigits : List Char → Nat × List Char
  | [] => (0, [])
  | c :: r =>
    if isDigit c then
      let p := splitDigits r
      (p.1 + 1, p.2)
    else (0, c :: r)

/-- Drop a single leading sign character if present. -/
def dropSign : List Char → List Char
  | ('+') :: r => r
  | ('-') :: r => r
  | l => l

/-- Valid exponent suffix of a float literal: e or E, an optional sign, and
one or more digits consuming the whole rest. -/
def validExp : List Char → Bool
  | c :: r =>
    if c == 'e' || c == 'E' then
      let r := dropSign r
      let p := splitDigits r
      decide (0 < p.1) && p.2.isEmpty
    else false
  | [] => false

/-- Valid unsigned number body of a float literal, following the documented
grammar of Rust f64::from_str: digits, an optional point with optional
further digits, and an optional exponent; or a point followed by digits and
an optional exponent. -/
def validNumberBody (l : List Char) : Bool :=
  let p := splitDigits l
  if 0 < p.1 then
    match p.2 with
    | [] => true
    | ('.') :: r2 =>
      let q := splitDigits r2
      q.2.isEmpty || validExp q.2
    | r => validExp r
  else
    match l with
    | ('.') :: r2 =>
      let q := splitDigits r2
      decide (0 < q.1) && (q.2.isEmpty || validExp q.2)
    | _ => false

/-- Modelled from the spec: syntactic validity for Rust f64::from_str: an
optional sign followed by inf, infinity, nan (case-insensitive) or a number
body. -/
def validF64 (s : String) : Bool :=
  let l := dropSign s.toList
  let low := l.map Char.toLower
  low == "inf".toList || low == "infinity".toList || low == "nan".toList ||
    validNumberBody l

/-- Modelled from the spec: Rust str::parse to f64, returning the opaque
model of the parsed double on syntactically valid input. -/
def parseF64 (s : String) : Option F64 :=
  if validF64 s then some (F64.ofLit s) else none

/-- True when the literal text contains a period or an exponent character
(mir.rs: n.contains(a list of the three characters period, e, E)). -/
def hasFloatChars (s : String) : Bool :=
  s.toList.any fun c => c == '.' || c == 'e' || c == 'E'

/-- Number parsing (mir.rs `Num::parse`): texts with a float character are
parsed as doubles, all others as machine-size signed integers; the error
carries the zero of the attempted kind. -/
def Num.parse (n : String) : Except Num Num :=
  if hasFloatChars n then
    match parseF64 n with
    | some v => Except.ok (Num.float v)
    | none => Except.error (Num.float F64.zero)
  else
    match parseIsize n with
    | some i => Except.ok (Num.int i)
    | none => Except.error (Num.int 0)

/-- A definition record (mir.rs `struct Def`). -/
structure Def where
  name : String
  args : List Arg
  children : List Nat
  ancestors : List Nat
  recursive : Bool
  body : Spanned MirF

instance : Inhabited Def := ⟨⟨"", [], [], [], false, (Filter.id, (0, 0))⟩⟩

/-- Total indexing into the definition table (Rust indexing is only applied
to identifiers previously allocated into the table). -/
def getDef (ds : List Def) (i : Nat) : Def := ds.getD i default

/-- Modelled from the spec: an HIR definition (`parse::Def`): name, parameter
list, nested definitions, body. -/
inductive PDef where
  | mk (name : String) (args : List Arg) (defs : List PDef) (body : Spanned HirF)

/-- Index of the rightmost element equal to x, counted from the start of the
list (Rust Iterator::rposition). -/
def rposition {α : Type} [DecidableEq α] (x : α) : List α → Option Nat
  | [] => none
  | a :: as =>
    match rposition x as with
    | some j => some (j + 1)
    | none => if a = x then some 0 else none

/-- The ancestors of a definition followed by the definition itself, in
outermost-first order (mir.rs `Defs::ancestors_and_me`). -/
def ancestorsAndMe (ds : List Def) (i : Nat) : List Nat :=
  (getDef ds i).ancestors ++ [i]

/-- All arguments bound in a definition and its ancestors, outermost first
(mir.rs `Defs::args`). -/
def argsInScope (ds : List Def) (i : Nat) : List Arg :=
  (ancestorsAndMe ds i).flatMap fun a => (getDef ds a).args

/-- Position of the rightmost filter parameter of a definition with the given
name, offset by the filter-parameter count of the ancestors (mir.rs
`Defs::nonvar_arg_position`). -/
def nonvarArgPosition (ds : List Def) (i : Nat) (name : String) : Option Nat :=
  let nonvars := (getDef ds i).args.filterMap Arg.getNonvar
  match rposition name nonvars with
  | none => none
  | some k =>
    let cnt := ((getDef ds i).ancestors.flatMap fun a => (getDef ds a).args).countP
      fun a => !a.isVar
    some (k + cnt)

/-- Name-and-arity match of a candidate callee (mir.rs: the scan skips a
child unless its name and argument count both agree with the call). -/
def isMatch (ds : List Def) (name : String) (arity : Nat) (c : Nat) : Bool :=
  (getDef ds c).name == name && (getDef ds c).args.length == arity

/-- Scan the children of one ancestor in reverse declaration order for a
name-and-arity match (mir.rs: children.iter().rev() with the mismatch
test). -/
def findChild (ds : List Def) (name : String) (arity : Nat) (children : List Nat) :
    Option Nat :=
  children.reverse.find? (isMatch ds name arity)

/-- Outcome of the ancestor walk of call resolution: a defined filter or a
filter parameter. -/
inductive Resolved where
  | defn (c : Nat)
  | arg (i : Nat)
deriving DecidableEq, Repr

/-- The ancestor walk of call resolution (mir.rs `Ctx::filter`, Call case):
for each ancestor in the given order, first scan its children in reverse
declaration order, then (for nullary calls only) look for a filter
parameter; the first hit wins. -/
def resolveCall (ds : List Def) (name : String) (arity : Nat) :
    List Nat → Option Resolved
  | [] => none
  | a :: rest =>
    match findChild ds name arity (getDef ds a).children with
    | some c => some (Resolved.defn c)
    | none =>
      if arity ≠ 0 then resolveCall ds name arity rest
      else
        match nonvarArgPosition ds a name with
        | some i => some (Resolved.arg i)
        | none => resolveCall ds name arity rest

/-- The resolver context (mir.rs `struct Ctx`): diagnostics, recursion set,
definition table, native registrations (name, arity, opaque handle). -/
structure Ctx where
  errs : List Err
  recs : List Nat
  defs : List Def
  native : List (String × Nat × Nat)

/-- Fresh definition table with a synthetic root whose parameters are value
parameters named after the global variables (mir.rs `Defs::new`). -/
def Defs.new (vars : List String) : List Def :=
  [⟨"", vars.map Arg.newVar, [], [], false, (Filter.id, (0, 0))⟩]

/-- Fresh context with the given global variables (mir.rs `Ctx::new`). -/
def Ctx.new (vars : List String) : Ctx :=
  ⟨[], [], Defs.new vars, []⟩

/-- Register a native filter (mir.rs `Ctx::insert_native`). -/
def Ctx.insertNative (c : Ctx) (name : String) (arity : Nat) (f : Nat) : Ctx :=
  { c with native := c.native ++ [(name, arity, f)] }

/-- Append an error to the diagnostic list. -/
def pushErr (c : Ctx) (sp : Span) (msg : String) : Ctx :=
  { c with errs := c.errs ++ [(sp, msg)] }

mutual

/-- The lowering pass (mir.rs `Ctx::filter`): lower one spanned HIR
expression in the scope of definition `id` with the in-body variable stack
`vars` (outermost first), threading the context, whose `errs` and `recs` are
the only fields written.  Case order follows the Rust match; for a call, the
arguments are lowered first, then the callee is resolved by the ancestor
walk, falling back to the first matching native registration and finally to
an error with `Filter.id` substituted. -/
def Ctx.filter (c : Ctx) (id : Nat) (vars : List String) :
    Spanned HirF → Ctx × Spanned MirF
  | (Filter.call name args, sp) =>
    let p := Ctx.filterList c id vars args
    let c1 := p.1
    let margs := p.2
    match resolveCall c1.defs name margs.length (ancestorsAndMe c1.defs id) with
    | some (Resolved.defn ch) =>
      if (ancestorsAndMe c1.defs id).contains ch then
        let c2 :=
          if (getDef c1.defs ch).args.any (fun a => !a.isVar) then
            pushErr c1 sp
              "attempting to recursively call filter with non-variable argument"
          else c1
        ({ c2 with recs := c2.recs ++ [ch] },
          (Filter.call (Call.defn ch) margs, sp))
      else (c1, (Filter.call (Call.defn ch) margs, sp))
    | some (Resolved.arg i) => (c1, (Filter.call (Call.arg i) margs, sp))
    | none =>
      match c1.native.find? (fun e => e.1 == name && e.2.1 == margs.length) with
      | some e => (c1, (Filter.call (Call.native e.2.2) margs, sp))
      | none => (pushErr c1 sp "could not find function", (Filter.id, sp))
  | (Filter.var v, sp) =>
    let argVars := (argsInScope c.defs id).filterMap Arg.getVar
    let stack := argVars ++ vars
    match rposition v stack with
    | some i => (c, (Filter.var i, sp))
    | none => (pushErr c sp "undefined variable", (Filter.var 0, sp))
  | (Filter.binary l (BinaryOp.pipe (some x)) r, sp) =>
    let p1 := Ctx.filter c id vars l
    let p2 := Ctx.filter p1.1 id (vars ++ [x]) r
    (p2.1, (Filter.binary p1.2 (BinaryOp.pipe (some x)) p2.2, sp))
  | (Filter.fold typ xs x init f, sp) =>
    let p1 := Ctx.filter c id vars xs
    let p2 := Ctx.filter p1.1 id vars init
    let p3 := Ctx.filter p2.1 id (vars ++ [x]) f
    (p3.1, (Filter.fold typ p1.2 x p2.2 p3.2, sp))
  | (Filter.id, sp) => (c, (Filter.id, sp))
  | (Filter.num n, sp) =>
    match Num.parse n with
    | Except.ok v => (c, (Filter.num v, sp))
    | Except.error v =>
      let msg :=
        match v with
        | Num.float _ => "cannot interpret as floating-point number"
        | Num.int _ => "cannot interpret as machine-size integer"
      (pushErr c sp msg, (Filter.num v, sp))
  | (Filter.str s, sp) => (c, (Filter.str s, sp))
  | (Filter.array a, sp) =>
    let p := Ctx.filterOpt c id vars a
    (p.1, (Filter.array p.2, sp))
  | (Filter.object o, sp) =>
    let p := Ctx.filterObject c id vars o
    (p.1, (Filter.object p.2, sp))
  | (Filter.tryF f, sp) =>
    let p := Ctx.filter c id vars f
    (p.1, (Filter.tryF p.2, sp))
  | (Filter.neg f, sp) =>
    let p := Ctx.filter c id vars f
    (p.1, (Filter.neg p.2, sp))
  | (Filter.recurse, sp) => (c, (Filter.recurse, sp))
  | (Filter.binary l o r, sp) =>
    let p1 := Ctx.filter c id vars l
    let p2 := Ctx.filter p1.1 id vars r
    (p2.1, (Filter.binary p1.2 o p2.2, sp))
  | (Filter.ite its e, sp) =>
    let p := Ctx.filterIte c id vars its
    let pe := Ctx.filter p.1 id vars e
    (pe.1, (Filter.ite p.2 pe.2, sp))
  | (Filter.path f parts, sp) =>
    let p := Ctx.filter c id vars f
    let q := Ctx.filterPath p.1 id vars parts
    (q.1, (Filter.path p.2 q.2, sp))
termination_by x => sizeOf x

/-- Lower a list of spanned expressions left to right (call arguments). -/
def Ctx.filterList (c : Ctx) (id : Nat) (vars : List String) :
    List (Spanned HirF) → Ctx × List (Spanned MirF)
  | [] => (c, [])
  | a :: as =>
    let p := Ctx.filter c id vars a
    let q := Ctx.filterList p.1 id vars as
    (q.1, p.2 :: q.2)
termination_by x => sizeOf x

/-- Lower an optional expression (array bodies, range endpoints). -/
def Ctx.filterOpt (c : Ctx) (id : Nat) (vars : List String) :
    Option (Spanned HirF) → Ctx × Option (Spanned MirF)
  | none => (c, none)
  | some a =>
    let p := Ctx.filter c id vars a
    (p.1, some p.2)
termination_by x => sizeOf x

/-- Lower object entries in order: key first, then the optional value. -/
def Ctx.filterObject (c : Ctx) (id : Nat) (vars : List String) :
    List (Spanned HirF × Option (Spanned HirF)) →
      Ctx × List (Spanned MirF × Option (Spanned MirF))
  | [] => (c, [])
  | (k, v) :: rest =>
    let pk := Ctx.filter c id vars k
    let pv := Ctx.filterOpt pk.1 id vars v
    let q := Ctx.filterObject pv.1 id vars rest
    (q.1, (pk.2, pv.2) :: q.2)
termination_by x => sizeOf x

/-- Lower if-then arms in order: condition first, then branch. -/
def Ctx.filterIte (c : Ctx) (id : Nat) (vars : List String) :
    List (Spanned HirF × Spanned HirF) → Ctx × List (Spanned MirF × Spanned MirF)
  | [] => (c, [])
  | (i, t) :: rest =>
    let p1 := Ctx.filter c id vars i
    let p2 := Ctx.filter p1.1 id vars t
    let q := Ctx.filterIte p2.1 id vars rest
    (q.1, (p1.2, p2.2) :: q.2)
termination_by x => sizeOf x

/-- Lower path segments in order; a range lowers its lower endpoint first. -/
def Ctx.filterPath (c : Ctx) (id : Nat) (vars : List String) :
    List (PathPart (Spanned HirF) × Bool) →
      Ctx × List (PathPart (Spanned MirF) × Bool)
  | [] => (c, [])
  | (PathPart.index i, opt) :: rest =>
    let p := Ctx.filter c id vars i
    let q := Ctx.filterPath p.1 id vars rest
    (q.1, (PathPart.index p.2, opt) :: q.2)
  | (PathPart.range lo hi, opt) :: rest =>
    let p1 := Ctx.filterOpt c id vars lo
    let p2 := Ctx.filterOpt p1.1 id vars hi
    let q := Ctx.filterPath p2.1 id vars rest
    (q.1, (PathPart.range p1.2 p2.2, opt) :: q.2)
termination_by x => sizeOf x

end

mutual

/-- Definition insertion (mir.rs `Ctx::def`): allocate a fresh identifier,
push a record with a placeholder body, register it as a child of its parent,
insert the nested definitions, and only then lower the body. -/
def Ctx.defn (c : Ctx) (ancestors : List Nat) : PDef → Ctx
  | PDef.mk name args ds body =>
    let i := c.defs.length
    let c1 : Ctx :=
      { c with defs := c.defs ++
          [⟨name, args, [], ancestors, false, (Filter.id, (0, 0))⟩] }
    let c2 : Ctx :=
      match ancestors.getLast? with
      | some parent =>
        let pd := getDef c1.defs parent
        let pd2 : Def := { pd with children := pd.children ++ [i] }
        { c1 with defs := c1.defs.set parent pd2 }
      | none => c1
    let c3 := Ctx.defnList c2 (ancestors ++ [i]) ds
    let p := Ctx.filter c3 i [] body
    let bd : Def := { getDef p.1.defs i with body := p.2 }
    { p.1 with defs := p.1.defs.set i bd }
termination_by x => sizeOf x

/-- Insert a list of sibling definitions in declaration order. -/
def Ctx.defnList (c : Ctx) (ancestors : List Nat) : List PDef → Ctx
  | [] => c
  | d :: ds => Ctx.defnList (Ctx.defn c ancestors d) ancestors ds
termination_by x => sizeOf x

end

/-- The recursion finaliser (mir.rs `Ctx::root_def`, final loop): mark every
identifier in the recursion set as recursive. -/
def markRecs (ds : List Def) (recs : List Nat) : List Def :=
  recs.foldl (fun ds i => ds.set i { getDef ds i with recursive := true }) ds

/-- Insert a root definition as a child of the synthetic root, then run the
recursion finaliser (mir.rs `Ctx::root_def`). -/
def Ctx.rootDef (c : Ctx) (d : PDef) : Ctx :=
  let c1 := Ctx.defn c [0] d
  { c1 with defs := markRecs c1.defs c1.recs }

/-- Insert root definitions in order (mir.rs `Ctx::insert_defs`). -/
def Ctx.insertDefs (c : Ctx) (ds : List PDef) : Ctx :=
  ds.foldl Ctx.rootDef c

/-- Lower a root filter in the synthetic root scope and store it as the
root's body (mir.rs `Ctx::root_filter`). -/
def Ctx.rootFilter (c : Ctx) (f : Spanned HirF) : Ctx :=
  let p := Ctx.filter c 0 [] f
  { p.1 with defs := p.1.defs.set 0 { getDef p.1.defs 0 with body := p.2 } }

/-- Context extension: the lowering pass leaves the definition table and the
native registry unchanged and only appends to the diagnostic list and the
recursion set. -/
def Ext (c c' : Ctx) : Prop :=
  c'.defs = c.defs ∧ c'.native = c.native ∧
    (∃ E, c'.errs = c.errs ++ E) ∧ (∃ R, c'.recs = c.recs ++ R)

theorem Ext.rfl (c : Ctx) : Ext c c :=
  ⟨by rfl, by rfl, ⟨[], by simp⟩, ⟨[], by simp⟩⟩

theorem Ext.trans {a b c : Ctx} (h1 : Ext a b) (h2 : Ext b c) : Ext a c := by
  obtain ⟨d1, n1, ⟨E1, e1⟩, ⟨R1, r1⟩⟩ := h1
  obtain ⟨d2, n2, ⟨E2, e2⟩, ⟨R2, r2⟩⟩ := h2
  exact ⟨d2.trans d1, n2.trans n1, ⟨E1 ++ E2, by simp [e2, e1]⟩,
    ⟨R1 ++ R2, by simp [r2, r1]⟩⟩

theorem Ext.push (c : Ctx) (sp : Span) (m : String) : Ext c (pushErr c sp m) :=
  ⟨by rfl, by rfl, ⟨[(sp, m)], by rfl⟩, ⟨[], by simp [pushErr]⟩⟩

theorem Ext.recsApp (c : Ctx) (l : List Nat) :
    Ext c { c with recs := c.recs ++ l } :=
  ⟨by rfl, by rfl, ⟨[], by simp⟩, ⟨l, by rfl⟩⟩

mutual

/-- Lowering a spanned expression is a context extension. -/
theorem filter_ext (c : Ctx) (id : Nat) (vars : List String) (f : Spanned HirF) :
    Ext c (Ctx.filter c id vars f).1 := by
  match f with
  | (Filter.call name args, sp) =>
    have hargs := filterList_ext c id vars args
    simp only [Ctx.filter]
    split
    · split
      · split
        · exact hargs.trans ((Ext.push _ _ _).trans (Ext.recsApp _ _))
        · exact hargs.trans (Ext.recsApp _ _)
      · exact hargs
    · exact hargs
    · split
      · exact hargs
      · exact hargs.trans (Ext.push _ _ _)
  | (Filter.var v, sp) =>
    simp only [Ctx.filter]
    split
    · exact Ext.rfl c
    · exact Ext.push c sp _
  | (Filter.binary l (BinaryOp.pipe (some x)) r, sp) =>
    simp only [Ctx.filter]
    exact (filter_ext c id vars l).trans
      (filter_ext (Ctx.filter c id vars l).1 id (vars ++ [x]) r)
  | (Filter.fold typ xs x init f, sp) =>
    simp only [Ctx.filter]
    exact ((filter_ext c id vars xs).trans
      (filter_ext _ id vars init)).trans (filter_ext _ id (vars ++ [x]) f)
  | (Filter.id, sp) => simp only [Ctx.filter]; exact Ext.rfl c
  | (Filter.num n, sp) =>
    simp only [Ctx.filter]
    split
    · exact Ext.rfl c
    · exact Ext.push c sp _
  | (Filter.str s, sp) => simp only [Ctx.filter]; exact Ext.rfl c
  | (Filter.array a, sp) =>
    simp only [Ctx.filter]; exact filterOpt_ext c id vars a
  | (Filter.object o, sp) =>
    simp only [Ctx.filter]; exact filterObject_ext c id vars o
  | (Filter.tryF f, sp) =>
    simp only [Ctx.filter]; exact filter_ext c id vars f
  | (Filter.neg f, sp) =>
    simp only [Ctx.filter]; exact filter_ext c id vars f
  | (Filter.recurse, sp) => simp only [Ctx.filter]; exact Ext.rfl c
  | (Filter.binary l (BinaryOp.pipe none) r, sp) =>
    simp only [Ctx.filter]
    exact (filter_ext c id vars l).trans (filter_ext _ id vars r)
  | (Filter.binary l (BinaryOp.op t) r, sp) =>
    simp only [Ctx.filter]
    exact (filter_ext c id vars l).trans (filter_ext _ id vars r)
  | (Filter.ite its e, sp) =>
    simp only [Ctx.filter]
    exact (filterIte_ext c id vars its).trans (filter_ext _ id vars e)
  | (Filter.path f parts, sp) =>
    simp only [Ctx.filter]
    exact (filter_ext c id vars f).trans (filterPath_ext _ id vars parts)
termination_by sizeOf f

theorem filterList_ext (c : Ctx) (id : Nat) (vars : List String)
    (l : List (Spanned HirF)) : Ext c (Ctx.filterList c id vars l).1 := by
  match l with
  | [] => simp only [Ctx.filterList]; exact Ext.rfl c
  | a :: as =>
    simp only [Ctx.filterList]
    exact (filter_ext c id vars a).trans (filterList_ext _ id vars as)
termination_by sizeOf l

theorem filterOpt_ext (c : Ctx) (id : Nat) (vars : List String)
    (a : Option (Spanned HirF)) : Ext c (Ctx.filterOpt c id vars a).1 := by
  match a with
  | none => simp only [Ctx.filterOpt]; exact Ext.rfl c
  | some x => simp only [Ctx.filterOpt]; exact filter_ext c id vars x
termination_by sizeOf a

theorem filterObject_ext (c : Ctx) (id : Nat) (vars : List String)
    (o : List (Spanned HirF × Option (Spanned HirF))) :
    Ext c (Ctx.filterObject c id vars o).1 := by
  match o with
  | [] => simp only [Ctx.filterObject]; exact Ext.rfl c
  | (k, v) :: rest =>
    simp only [Ctx.filterObject]
    exact ((filter_ext c id vars k).trans (filterOpt_ext _ id vars v)).trans
      (filterObject_ext _ id vars rest)
termination_by sizeOf o

theorem filterIte_ext (c : Ctx) (id : Nat) (vars : List String)
    (l : List (Spanned HirF × Spanned HirF)) :
    Ext c (Ctx.filterIte c id vars l).1 := by
  match l with
  | [] => simp only [Ctx.filterIte]; exact Ext.rfl c
  | (i, t) :: rest =>
    simp only [Ctx.filterIte]
    exact ((filter_ext c id vars i).trans (filter_ext _ id vars t)).trans
      (filterIte_ext _ id vars rest)
termination_by sizeOf l

theorem filterPath_ext (c : Ctx) (id : Nat) (vars : List String)
    (l : List (PathPart (Spanned HirF) × Bool)) :
    Ext c (Ctx.filterPath c id vars l).1 := by
  match l with
  | [] => simp only [Ctx.filterPath]; exact Ext.rfl c
  | (PathPart.index i, opt) :: rest =>
    simp only [Ctx.filterPath]
    exact (filter_ext c id vars i).trans (filterPath_ext _ id vars rest)
  | (PathPart.range lo hi, opt) :: rest =>
    simp only [Ctx.filterPath]
    exact ((filterOpt_ext c id vars lo).trans (filterOpt_ext _ id vars hi)).trans
      (filterPath_ext _ id vars rest)
termination_by sizeOf l

end

/-- The lowering preserves the span of the expression it is applied to. -/
theorem filter_span (c : Ctx) (id : Nat) (vars : List String) (f : Spanned HirF) :
    (Ctx.filter c id vars f).2.2 = f.2 := by
  match f with
  | (Filter.call name args, sp) =>
    simp only [Ctx.filter]
    split
    · split
      · rfl
      · rfl
    · rfl
    · split
      · rfl
      · rfl
  | (Filter.var v, sp) => simp only [Ctx.filter]; split <;> rfl
  | (Filter.binary l (BinaryOp.pipe (some x)) r, sp) => simp only [Ctx.filter]
  | (Filter.fold typ xs x init f, sp) => simp only [Ctx.filter]
  | (Filter.id, sp) => simp only [Ctx.filter]
  | (Filter.num n, sp) => simp only [Ctx.filter]; split <;> rfl
  | (Filter.str s, sp) => simp only [Ctx.filter]
  | (Filter.array a, sp) => simp only [Ctx.filter]
  | (Filter.object o, sp) => simp only [Ctx.filter]
  | (Filter.tryF f, sp) => simp only [Ctx.filter]
  | (Filter.neg f, sp) => simp only [Ctx.filter]
  | (Filter.recurse, sp) => simp only [Ctx.filter]
  | (Filter.binary l (BinaryOp.pipe none) r, sp) => simp only [Ctx.filter]
  | (Filter.binary l (BinaryOp.op t) r, sp) => simp only [Ctx.filter]
  | (Filter.ite its e, sp) => simp only [Ctx.filter]
  | (Filter.path f parts, sp) => simp only [Ctx.filter]

/-- Lowering a list of expressions yields a list of the same length. -/
theorem filterList_length (id : Nat) (vars : List String) :
    ∀ (l : List (Spanned HirF)) (c : Ctx),
      (Ctx.filterList c id vars l).2.length = l.length := by
  intro l
  induction l with
  | nil => intro c; simp [Ctx.filterList]
  | cons a as ih => intro c; simp [Ctx.filterList, ih]

theorem rposition_lt {α : Type} [DecidableEq α] {x : α} :
    ∀ {l : List α} {i : Nat}, rposition x l = some i → i < l.length := by
  intro l
  induction l with
  | nil => intro i h; simp [rposition] at h
  | cons a as ih =>
    intro i h
    rw [rposition] at h
    cases hr : rposition x as with
    | some j =>
      rw [hr] at h
      simp only [Option.some.injEq] at h
      subst h
      simpa using Nat.succ_lt_succ (ih hr)
    | none =>
      rw [hr] at h
      by_cases hax : a = x
      · simp only [if_pos hax, Option.some.injEq] at h
        subst h
        simp
      · simp [if_neg hax] at h

theorem rposition_get {α : Type} [DecidableEq α] {x : α} :
    ∀ {l : List α} {i : Nat}, rposition x l = some i → l[i]? = some x := by
  intro l
  induction l with
  | nil => intro i h; simp [rposition] at h
  | cons a as ih =>
    intro i h
    rw [rposition] at h
    cases hr : rposition x as with
    | some j =>
      rw [hr] at h
      simp only [Option.some.injEq] at h
      subst h
      simpa using ih hr
    | none =>
      rw [hr] at h
      by_cases hax : a = x
      · simp only [if_pos hax, Option.some.injEq] at h
        subst h
        simp [hax]
      · simp [if_neg hax] at h

theorem rposition_none {α : Type} [DecidableEq α] {x : α} :
    ∀ {l : List α}, rposition x l = none → x ∉ l := by
  intro l
  induction l with
  | nil => intro _; simp
  | cons a as ih =>
    intro h
    rw [rposition] at h
    cases hr : rposition x as with
    | some j => rw [hr] at h; simp at h
    | none =>
      rw [hr] at h
      by_cases hax : a = x
      · simp [if_pos hax] at h
      · simp only [List.mem_cons, not_or]
        exact ⟨fun hxa => hax hxa.symm, ih hr⟩

theorem rposition_rightmost {α : Type} [DecidableEq α] {x : α} :
    ∀ {l : List α} {i : Nat}, rposition x l = some i →
      ∀ j, i < j → l[j]? ≠ some x := by
  intro l
  induction l with
  | nil => intro i h; simp [rposition] at h
  | cons a as ih =>
    intro i h j hij
    rw [rposition] at h
    cases hr : rposition x as with
    | some jj =>
      rw [hr] at h
      simp only [Option.some.injEq] at h
      subst h
      cases j with
      | zero => omega
      | succ k =>
        simpa using ih hr k (by omega)
    | none =>
      rw [hr] at h
      by_cases hax : a = x
      · simp only [if_pos hax, Option.some.injEq] at h
        subst h
        cases j with
        | zero => omega
        | succ k =>
          have hnotin := rposition_none hr
          simp only [List.getElem?_cons_succ]
          intro hc
          cases hk : as[k]? with
          | none => rw [hk] at hc; cases hc
          | some y =>
            rw [hk] at hc
            injection hc with hy
            subst hy
            exact hnotin (List.getElem?_mem hk)
      · simp [if_neg hax] at h

/-- A first-match search equals the head of the filtered list. -/
theorem find?_filter_head {α : Type} (p : α → Bool) :
    ∀ l : List α, l.find? p = (l.filter p).head? := by
  intro l
  induction l with
  | nil => simp
  | cons a as ih =>
    cases hp : p a with
    | true => rw [List.find?_cons_of_pos _ hp, List.filter_cons_of_pos hp]; rfl
    | false =>
      rw [List.find?_cons_of_neg _ (by simp [hp]), List.filter_cons_of_neg (by simp [hp])]
      exact ih

/-- The reverse scan of a children list finds the last matching child. -/
theorem findChild_getLast (ds : List Def) (name : String) (arity : Nat)
    (children : List Nat) :
    findChild ds name arity children =
      (children.filter (isMatch ds name arity)).getLast? := by
  rw [findChild, find?_filter_head, List.filter_reverse, List.head?_reverse]

/-- Resolution at a matching outermost ancestor: the head of the ancestor
walk wins regardless of everything after it. -/
theorem resolveCall_head {ds : List Def} {name : String} {arity : Nat}
    {a : Nat} {rest : List Nat} {c : Nat}
    (h : findChild ds name arity (getDef ds a).children = some c) :
    resolveCall ds name arity (a :: rest) = some (Resolved.defn c) := by
  rw [resolveCall, h]

/-- An ancestor with no matching child and no matching nullary filter
parameter is skipped. -/
theorem resolveCall_skip {ds : List Def} {name : String} {arity : Nat}
    {a : Nat} {rest : List Nat}
    (h1 : findChild ds name arity (getDef ds a).children = none)
    (h2 : arity = 0 → nonvarArgPosition ds a name = none) :
    resolveCall ds name arity (a :: rest) = resolveCall ds name arity rest := by
  by_cases har : arity = 0
  · subst har
    rw [resolveCall, h1]
    simp [h2 rfl]
  · rw [resolveCall, h1]
    simp [har]

/-- The first ancestor (in walk order) with a matching child resolves the
call, provided every earlier ancestor offers neither a matching child nor a
matching nullary filter parameter. -/
theorem resolveCall_found {ds : List Def} {name : String} {arity : Nat} :
    ∀ {pre : List Nat} {a : Nat} {rest : List Nat} {c : Nat},
      (∀ b ∈ pre, findChild ds name arity (getDef ds b).children = none ∧
        (arity = 0 → nonvarArgPosition ds b name = none)) →
      findChild ds name arity (getDef ds a).children = some c →
      resolveCall ds name arity (pre ++ a :: rest) = some (Resolved.defn c) := by
  intro pre
  induction pre with
  | nil => intro a rest c _ h; exact resolveCall_head h
  | cons b bs ih =>
    intro a rest c hpre h
    have hb := hpre b (by simp)
    rw [List.cons_append, resolveCall_skip hb.1 hb.2]
    exact ih (fun x hx => hpre x (by simp [hx])) h

/-- Any definition produced by the ancestor walk is a child of one of the
walked ancestors. -/
theorem resolveCall_defn_mem {ds : List Def} {name : String} {arity : Nat} :
    ∀ {as : List Nat} {c : Nat},
      resolveCall ds name arity as = some (Resolved.defn c) →
      ∃ a ∈ as, c ∈ (getDef ds a).children := by
  intro as
  induction as with
  | nil => intro c h; simp [resolveCall] at h
  | cons a rest ih =>
    intro c h
    rw [resolveCall] at h
    cases hf : findChild ds name arity (getDef ds a).children with
    | some x =>
      rw [hf] at h
      simp only [Option.some.injEq, Resolved.defn.injEq] at h
      subst h
      have hm := List.mem_of_find?_eq_some hf
      exact ⟨a, by simp, by simpa using hm⟩
    | none =>
      rw [hf] at h
      by_cases har : arity ≠ 0
      · rw [if_pos har] at h
        obtain ⟨b, hb, hc⟩ := ih h
        exact ⟨b, by simp [hb], hc⟩
      · rw [if_neg har] at h
        cases hn : nonvarArgPosition ds a name with
        | some i => rw [hn] at h; simp at h
        | none =>
          rw [hn] at h
          obtain ⟨b, hb, hc⟩ := ih h
          exact ⟨b, by simp [hb], hc⟩

theorem getDef_eq (ds : List Def) (i : Nat) : getDef ds i = (ds[i]?).getD default := by
  simp [getDef, List.getD_eq_getElem?_getD]

theorem markRecs_length (recs : List Nat) :
    ∀ ds : List Def, (markRecs ds recs).length = ds.length := by
  induction recs with
  | nil => intro ds; rfl
  | cons r rs ih =>
    intro ds
    show (markRecs (ds.set r _) rs).length = _
    rw [ih, List.length_set]

theorem getDef_set_body (ds : List Def) (r i : Nat) (v : Def)
    (hv : v.body = (getDef ds r).body) :
    (getDef (ds.set r v) i).body = (getDef ds i).body := by
  by_cases hri : r = i
  · subst hri
    by_cases hlt : r < ds.length
    · rw [getDef_eq, List.getElem?_set_self hlt, Option.getD_some, hv, getDef_eq]
    · rw [List.set_eq_of_length_le (Nat.le_of_not_lt hlt)]
  · rw [getDef_eq, List.getElem?_set_ne hri, ← getDef_eq]

theorem markRecs_body (i : Nat) (recs : List Nat) :
    ∀ ds : List Def, (getDef (markRecs ds recs) i).body = (getDef ds i).body := by
  induction recs with
  | nil => intro ds; rfl
  | cons r rs ih =>
    intro ds
    show (getDef (markRecs (ds.set r _) rs) i).body = _
    rw [ih, getDef_set_body]
    rfl

theorem markRecs_bodyE (i : Nat) (recs : List Nat) (ds : List Def) :
    (((markRecs ds recs)[i]?).getD default).body = ((ds[i]?).getD default).body := by
  have := markRecs_body i recs ds
  simpa [getDef_eq] using this

theorem getDef_set_keepRec (ds : List Def) (r i : Nat)
    (h : (getDef ds i).recursive = true) :
    (getDef (ds.set r ({ getDef ds r with recursive := true })) i).recursive = true := by
  by_cases hri : r = i
  · subst hri
    by_cases hlt : r < ds.length
    · rw [getDef_eq, List.getElem?_set_self hlt, Option.getD_some]
    · rw [List.set_eq_of_length_le (Nat.le_of_not_lt hlt)]
      exact h
  · rw [getDef_eq, List.getElem?_set_ne hri, ← getDef_eq]
    exact h

theorem markRecs_keepRec (i : Nat) (recs : List Nat) :
    ∀ ds : List Def, (getDef ds i).recursive = true →
      (getDef (markRecs ds recs) i).recursive = true := by
  induction recs with
  | nil => intro ds h; exact h
  | cons r rs ih =>
    intro ds h
    show (getDef (markRecs (ds.set r _) rs) i).recursive = true
    exact ih _ (getDef_set_keepRec ds r i h)

/-- The recursion finaliser marks every in-range member of the recursion set
as recursive. -/
theorem markRecs_recursive (i : Nat) (recs : List Nat) :
    ∀ ds : List Def, i ∈ recs → i < ds.length →
      (getDef (markRecs ds recs) i).recursive = true := by
  induction recs with
  | nil => intro ds h; cases h
  | cons r rs ih =>
    intro ds hmem hlt
    show (getDef (markRecs (ds.set r _) rs) i).recursive = true
    by_cases hri : i = r
    · subst hri
      apply markRecs_keepRec
      rw [getDef_eq, List.getElem?_set_self hlt]
      rfl
    · rcases List.mem_cons.mp hmem with h | h
      · exact absurd h hri
      · exact ih _ h (by rwa [List.length_set])

/-- The number of binders visible at a program point: value parameters in
scope plus the in-body variable stack. -/
def stackLen (ds : List Def) (id : Nat) (vars : List String) : Nat :=
  ((argsInScope ds id).filterMap Arg.getVar).length + vars.length

mutual

/-- Every variable position in a MIR expression is below the bound `max 1 n`,
where `n` is the binder count at the expression's position; the bound grows
by one under a binding pipe and under the body of a fold. -/
def varsBelowB (n : Nat) : MirF → Bool
  | Filter.call _ args => varsListB n args
  | Filter.var v => decide (v < max 1 n)
  | Filter.binary (l, _) (BinaryOp.pipe (some _)) (r, _) =>
    varsBelowB n l && varsBelowB (n + 1) r
  | Filter.binary (l, _) (BinaryOp.pipe none) (r, _) =>
    varsBelowB n l && varsBelowB n r
  | Filter.binary (l, _) (BinaryOp.op _) (r, _) => varsBelowB n l && varsBelowB n r
  | Filter.fold _ (xs, _) _ (init, _) (f, _) =>
    varsBelowB n xs && varsBelowB n init && varsBelowB (n + 1) f
  | Filter.id => true
  | Filter.num _ => true
  | Filter.str _ => true
  | Filter.array a => varsOptB n a
  | Filter.object o => varsObjB n o
  | Filter.tryF (f, _) => varsBelowB n f
  | Filter.neg (f, _) => varsBelowB n f
  | Filter.recurse => true
  | Filter.ite its (e, _) => varsIteB n its && varsBelowB n e
  | Filter.path (f, _) parts => varsBelowB n f && varsPathB n parts
termination_by x => sizeOf x

def varsListB (n : Nat) : List (Spanned MirF) → Bool
  | [] => true
  | (a, _) :: as => varsBelowB n a && varsListB n as
termination_by x => sizeOf x

def varsOptB (n : Nat) : Option (Spanned MirF) → Bool
  | none => true
  | some (a, _) => varsBelowB n a
termination_by x => sizeOf x

def varsObjB (n : Nat) : List (Spanned MirF × Option (Spanned MirF)) → Bool
  | [] => true
  | ((k, _), v) :: rest => varsBelowB n k && varsOptB n v && varsObjB n rest
termination_by x => sizeOf x

def varsIteB (n : Nat) : List (Spanned MirF × Spanned MirF) → Bool
  | [] => true
  | ((i, _), (t, _)) :: rest => varsBelowB n i && varsBelowB n t && varsIteB n rest
termination_by x => sizeOf x

def varsPathB (n : Nat) : List (PathPart (Spanned MirF) × Bool) → Bool
  | [] => true
  | (PathPart.index (i, _), _) :: rest => varsBelowB n i && varsPathB n rest
  | (PathPart.range lo hi, _) :: rest =>
    varsOptB n lo && varsOptB n hi && varsPathB n rest
termination_by x => sizeOf x

end

theorem vb_pipeSome (n : Nat) (l r : Spanned MirF) (x : String) :
    varsBelowB n (Filter.binary l (BinaryOp.pipe (some x)) r) =
      (varsBelowB n l.1 && varsBelowB (n + 1) r.1) := by
  rcases l with ⟨l, ls⟩; rcases r with ⟨r, rs⟩; simp [varsBelowB]

theorem vb_pipeNone (n : Nat) (l r : Spanned MirF) :
    varsBelowB n (Filter.binary l (BinaryOp.pipe none) r) =
      (varsBelowB n l.1 && varsBelowB n r.1) := by
  rcases l with ⟨l, ls⟩; rcases r with ⟨r, rs⟩; simp [varsBelowB]

theorem vb_op (n : Nat) (l r : Spanned MirF) (t : Nat) :
    varsBelowB n (Filter.binary l (BinaryOp.op t) r) =
      (varsBelowB n l.1 && varsBelowB n r.1) := by
  rcases l with ⟨l, ls⟩; rcases r with ⟨r, rs⟩; simp [varsBelowB]

theorem vb_fold (n : Nat) (typ : Nat) (xs init f : Spanned MirF) (x : String) :
    varsBelowB n (Filter.fold typ xs x init f) =
      (varsBelowB n xs.1 && varsBelowB n init.1 && varsBelowB (n + 1) f.1) := by
  rcases xs with ⟨a, b⟩; rcases init with ⟨d, e⟩; rcases f with ⟨g, h⟩
  simp [varsBelowB]

theorem vb_tryF (n : Nat) (f : Spanned MirF) :
    varsBelowB n (Filter.tryF f) = varsBelowB n f.1 := by
  rcases f with ⟨f, fs⟩; simp [varsBelowB]

theorem vb_neg (n : Nat) (f : Spanned MirF) :
    varsBelowB n (Filter.neg f) = varsBelowB n f.1 := by
  rcases f with ⟨f, fs⟩; simp [varsBelowB]

theorem vb_ite (n : Nat) (its : List (Spanned MirF × Spanned MirF))
    (e : Spanned MirF) :
    varsBelowB n (Filter.ite its e) = (varsIteB n its && varsBelowB n e.1) := by
  rcases e with ⟨e, es⟩; simp [varsBelowB]

theorem vb_path (n : Nat) (f : Spanned MirF)
    (parts : List (PathPart (Spanned MirF) × Bool)) :
    varsBelowB n (Filter.path f parts) = (varsBelowB n f.1 && varsPathB n parts) := by
  rcases f with ⟨f, fs⟩; simp [varsBelowB]

theorem vo_some (n : Nat) (a : Spanned MirF) :
    varsOptB n (some a) = varsBelowB n a.1 := by
  rcases a with ⟨a, as⟩; simp [varsOptB]

theorem vl_cons (n : Nat) (a : Spanned MirF) (as : List (Spanned MirF)) :
    varsListB n (a :: as) = (varsBelowB n a.1 && varsListB n as) := by
  rcases a with ⟨a, sp⟩; simp [varsListB]

theorem vobj_cons (n : Nat) (k : Spanned MirF) (v : Option (Spanned MirF))
    (rest : List (Spanned MirF × Option (Spanned MirF))) :
    varsObjB n ((k, v) :: rest) =
      (varsBelowB n k.1 && varsOptB n v && varsObjB n rest) := by
  rcases k with ⟨k, ks⟩; simp [varsObjB]

theorem vite_cons (n : Nat) (i t : Spanned MirF)
    (rest : List (Spanned MirF × Spanned MirF)) :
    varsIteB n ((i, t) :: rest) =
      (varsBelowB n i.1 && varsBelowB n t.1 && varsIteB n rest) := by
  rcases i with ⟨i, is⟩; rcases t with ⟨t, ts⟩; simp [varsIteB]

theorem vpath_index (n : Nat) (i : Spanned MirF) (opt : Bool)
    (rest : List (PathPart (Spanned MirF) × Bool)) :
    varsPathB n ((PathPart.index i, opt) :: rest) =
      (varsBelowB n i.1 && varsPathB n rest) := by
  rcases i with ⟨i, is⟩; simp [varsPathB]

theorem vpath_range (n : Nat) (lo hi : Option (Spanned MirF)) (opt : Bool)
    (rest : List (PathPart (Spanned MirF) × Bool)) :
    varsPathB n ((PathPart.range lo hi, opt) :: rest) =
      (varsOptB n lo && varsOptB n hi && varsPathB n rest) := by
  simp [varsPathB]

mutual

/-- Every variable position produced by the lowering is below the binder
count at its position (with the `max 1` allowance for the position-0
substitution of unresolved names). -/
theorem filter_vars (c : Ctx) (id : Nat) (vars : List String) (f : Spanned HirF) :
    varsBelowB (stackLen c.defs id vars) ((Ctx.filter c id vars f).2.1) = true := by
  match f with
  | (Filter.call name args, sp) =>
    have hargs := filterList_vars c id vars args
    simp only [Ctx.filter]
    split
    · split
      · split <;> (simp only [varsBelowB]; exact hargs)
      · simp only [varsBelowB]; exact hargs
    · simp only [varsBelowB]; exact hargs
    · split
      · simp only [varsBelowB]; exact hargs
      · simp only [varsBelowB]
  | (Filter.var v, sp) =>
    simp only [Ctx.filter]
    split
    next i hr =>
      simp only [varsBelowB, decide_eq_true_eq]
      have hlt := rposition_lt hr
      simp only [List.length_append] at hlt
      have h2 : i < stackLen c.defs id vars := by
        simpa [stackLen] using hlt
      exact lt_of_lt_of_le h2 (le_max_right 1 _)
    next =>
      simp only [varsBelowB, decide_eq_true_eq]
      exact lt_of_lt_of_le Nat.zero_lt_one (le_max_left 1 _)
  | (Filter.binary l (BinaryOp.pipe (some x)) r, sp) =>
    simp only [Ctx.filter, vb_pipeSome, Bool.and_eq_true]
    refine ⟨filter_vars c id vars l, ?_⟩
    have hd := (filter_ext c id vars l).1
    have hr := filter_vars (Ctx.filter c id vars l).1 id (vars ++ [x]) r
    rw [hd] at hr
    simpa [stackLen, Nat.add_assoc] using hr
  | (Filter.fold typ xs x init f, sp) =>
    simp only [Ctx.filter, vb_fold, Bool.and_eq_true]
    have h1 := filter_vars c id vars xs
    have hd1 := (filter_ext c id vars xs).1
    have h2 := filter_vars (Ctx.filter c id vars xs).1 id vars init
    rw [hd1] at h2
    have hd2 := (filter_ext (Ctx.filter c id vars xs).1 id vars init).1
    have h3 := filter_vars ((Ctx.filter c id vars xs).1.filter id vars init).1 id
      (vars ++ [x]) f
    rw [hd2, hd1] at h3
    refine ⟨⟨h1, h2⟩, ?_⟩
    simpa [stackLen, Nat.add_assoc] using h3
  | (Filter.id, sp) => simp only [Ctx.filter, varsBelowB]
  | (Filter.num n, sp) =>
    simp only [Ctx.filter]
    split <;> simp only [varsBelowB]
  | (Filter.str s, sp) => simp only [Ctx.filter, varsBelowB]
  | (Filter.array a, sp) =>
    simp only [Ctx.filter, varsBelowB]
    exact filterOpt_vars c id vars a
  | (Filter.object o, sp) =>
    simp only [Ctx.filter, varsBelowB]
    exact filterObject_vars c id vars o
  | (Filter.tryF f, sp) =>
    simp only [Ctx.filter, vb_tryF]
    exact filter_vars c id vars f
  | (Filter.neg f, sp) =>
    simp only [Ctx.filter, vb_neg]
    exact filter_vars c id vars f
  | (Filter.recurse, sp) => simp only [Ctx.filter, varsBelowB]
  | (Filter.binary l (BinaryOp.pipe none) r, sp) =>
    simp only [Ctx.filter, vb_pipeNone, Bool.and_eq_true]
    refine ⟨filter_vars c id vars l, ?_⟩
    have hd := (filter_ext c id vars l).1
    have hr := filter_vars (Ctx.filter c id vars l).1 id vars r
    rwa [hd] at hr
  | (Filter.binary l (BinaryOp.op t) r, sp) =>
    simp only [Ctx.filter, vb_op, Bool.and_eq_true]
    refine ⟨filter_vars c id vars l, ?_⟩
    have hd := (filter_ext c id vars l).1
    have hr := filter_vars (Ctx.filter c id vars l).1 id vars r
    rwa [hd] at hr
  | (Filter.ite its e, sp) =>
    simp only [Ctx.filter, vb_ite, Bool.and_eq_true]
    refine ⟨filterIte_vars c id vars its, ?_⟩
    have hd := (filterIte_ext c id vars its).1
    have hr := filter_vars (Ctx.filterIte c id vars its).1 id vars e
    rwa [hd] at hr
  | (Filter.path f parts, sp) =>
    simp only [Ctx.filter, vb_path, Bool.and_eq_true]
    refine ⟨filter_vars c id vars f, ?_⟩
    have hd := (filter_ext c id vars f).1
    have hr := filterPath_vars (Ctx.filter c id vars f).1 id vars parts
    rwa [hd] at hr
termination_by sizeOf f

theorem filterList_vars (c : Ctx) (id : Nat) (vars : List String)
    (l : List (Spanned HirF)) :
    varsListB (stackLen c.defs id vars) ((Ctx.filterList c id vars l).2) = true := by
  match l with
  | [] => simp only [Ctx.filterList, varsListB]
  | a :: as =>
    simp only [Ctx.filterList, vl_cons, Bool.and_eq_true]
    refine ⟨filter_vars c id vars a, ?_⟩
    have hd := (filter_ext c id vars a).1
    have hr := filterList_vars (Ctx.filter c id vars a).1 id vars as
    rwa [hd] at hr
termination_by sizeOf l

theorem filterOpt_vars (c : Ctx) (id : Nat) (vars : List String)
    (a : Option (Spanned HirF)) :
    varsOptB (stackLen c.defs id vars) ((Ctx.filterOpt c id vars a).2) = true := by
  match a with
  | none => simp only [Ctx.filterOpt, varsOptB]
  | some x =>
    simp only [Ctx.filterOpt, vo_some]
    exact filter_vars c id vars x
termination_by sizeOf a

theorem filterObject_vars (c : Ctx) (id : Nat) (vars : List String)
    (o : List (Spanned HirF × Option (Spanned HirF))) :
    varsObjB (stackLen c.defs id vars) ((Ctx.filterObject c id vars o).2) = true := by
  match o with
  | [] => simp only [Ctx.filterObject, varsObjB]
  | (k, v) :: rest =>
    simp only [Ctx.filterObject, vobj_cons, Bool.and_eq_true]
    have hd1 := (filter_ext c id vars k).1
    have h2 := filterOpt_vars (Ctx.filter c id vars k).1 id vars v
    rw [hd1] at h2
    have hd2 := (filterOpt_ext (Ctx.filter c id vars k).1 id vars v).1
    have h3 := filterObject_vars ((Ctx.filter c id vars k).1.filterOpt id vars v).1
      id vars rest
    rw [hd2, hd1] at h3
    exact ⟨⟨filter_vars c id vars k, h2⟩, h3⟩
termination_by sizeOf o

theorem filterIte_vars (c : Ctx) (id : Nat) (vars : List String)
    (l : List (Spanned HirF × Spanned HirF)) :
    varsIteB (stackLen c.defs id vars) ((Ctx.filterIte c id vars l).2) = true := by
  match l with
  | [] => simp only [Ctx.filterIte, varsIteB]
  | (i, t) :: rest =>
    simp only [Ctx.filterIte, vite_cons, Bool.and_eq_true]
    have hd1 := (filter_ext c id vars i).1
    have h2 := filter_vars (Ctx.filter c id vars i).1 id vars t
    rw [hd1] at h2
    have hd2 := (filter_ext (Ctx.filter c id vars i).1 id vars t).1
    have h3 := filterIte_vars ((Ctx.filter c id vars i).1.filter id vars t).1
      id vars rest
    rw [hd2, hd1] at h3
    exact ⟨⟨filter_vars c id vars i, h2⟩, h3⟩
termination_by sizeOf l

theorem filterPath_vars (c : Ctx) (id : Nat) (vars : List String)
    (l : List (PathPart (Spanned HirF) × Bool)) :
    varsPathB (stackLen c.defs id vars) ((Ctx.filterPath c id vars l).2) = true := by
  match l with
  | [] => simp only [Ctx.filterPath, varsPathB]
  | (PathPart.index i, opt) :: rest =>
    simp only [Ctx.filterPath, vpath_index, Bool.and_eq_true]
    have hd1 := (filter_ext c id vars i).1
    have h2 := filterPath_vars (Ctx.filter c id vars i).1 id vars rest
    rw [hd1] at h2
    exact ⟨filter_vars c id vars i, h2⟩
  | (PathPart.range lo hi, opt) :: rest =>
    simp only [Ctx.filterPath, vpath_range, Bool.and_eq_true]
    have hd1 := (filterOpt_ext c id vars lo).1
    have h2 := filterOpt_vars (Ctx.filterOpt c id vars lo).1 id vars hi
    rw [hd1] at h2
    have hd2 := (filterOpt_ext (Ctx.filterOpt c id vars lo).1 id vars hi).1
    have h3 := filterPath_vars ((Ctx.filterOpt c id vars lo).1.filterOpt id vars hi).1
      id vars rest
    rw [hd2, hd1] at h3
    exact ⟨⟨filterOpt_vars c id vars lo, h2⟩, h3⟩
termination_by sizeOf l

end

/-- A call target referencing a definition references one below the given
table length; parameter and native targets are unconstrained. -/
def callOkB (len : Nat) : Call → Bool
  | Call.defn i => decide (i < len)
  | Call.arg _ => true
  | Call.native _ => true

mutual

/-- Every definition target of a call in a MIR expression is below the given
table length. -/
def defsBelowB (len : Nat) : MirF → Bool
  | Filter.call t args => callOkB len t && defsListB len args
  | Filter.var _ => true
  | Filter.binary (l, _) _ (r, _) => defsBelowB len l && defsBelowB len r
  | Filter.fold _ (xs, _) _ (init, _) (f, _) =>
    defsBelowB len xs && defsBelowB len init && defsBelowB len f
  | Filter.id => true
  | Filter.num _ => true
  | Filter.str _ => true
  | Filter.array a => defsOptB len a
  | Filter.object o => defsObjB len o
  | Filter.tryF (f, _) => defsBelowB len f
  | Filter.neg (f, _) => defsBelowB len f
  | Filter.recurse => true
  | Filter.ite its (e, _) => defsIteB len its && defsBelowB len e
  | Filter.path (f, _) parts => defsBelowB len f && defsPathB len parts
termination_by x => sizeOf x

def defsListB (len : Nat) : List (Spanned MirF) → Bool
  | [] => true
  | (a, _) :: as => defsBelowB len a && defsListB len as
termination_by x => sizeOf x

def defsOptB (len : Nat) : Option (Spanned MirF) → Bool
  | none => true
  | some (a, _) => defsBelowB len a
termination_by x => sizeOf x

def defsObjB (len : Nat) : List (Spanned MirF × Option (Spanned MirF)) → Bool
  | [] => true
  | ((k, _), v) :: rest => defsBelowB len k && defsOptB len v && defsObjB len rest
termination_by x => sizeOf x

def defsIteB (len : Nat) : List (Spanned MirF × Spanned MirF) → Bool
  | [] => true
  | ((i, _), (t, _)) :: rest =>
    defsBelowB len i && defsBelowB len t && defsIteB len rest
termination_by x => sizeOf x

def defsPathB (len : Nat) : List (PathPart (Spanned MirF) × Bool) → Bool
  | [] => true
  | (PathPart.index (i, _), _) :: rest => defsBelowB len i && defsPathB len rest
  | (PathPart.range lo hi, _) :: rest =>
    defsOptB len lo && defsOptB len hi && defsPathB len rest
termination_by x => sizeOf x

end

theorem db_binary (len : Nat) (l r : Spanned MirF) (o : BinaryOp) :
    defsBelowB len (Filter.binary l o r) =
      (defsBelowB len l.1 && defsBelowB len r.1) := by
  rcases l with ⟨l, ls⟩; rcases r with ⟨r, rs⟩
  cases o with
  | pipe x => cases x <;> simp [defsBelowB]
  | op t => simp [defsBelowB]

theorem db_fold (len : Nat) (typ : Nat) (xs init f : Spanned MirF) (x : String) :
    defsBelowB len (Filter.fold typ xs x init f) =
      (defsBelowB len xs.1 && defsBelowB len init.1 && defsBelowB len f.1) := by
  rcases xs with ⟨a, b⟩; rcases init with ⟨d, e⟩; rcases f with ⟨g, hh⟩
  simp [defsBelowB]

theorem db_tryF (len : Nat) (f : Spanned MirF) :
    defsBelowB len (Filter.tryF f) = defsBelowB len f.1 := by
  rcases f with ⟨f, fs⟩; simp [defsBelowB]

theorem db_neg (len : Nat) (f : Spanned MirF) :
    defsBelowB len (Filter.neg f) = defsBelowB len f.1 := by
  rcases f with ⟨f, fs⟩; simp [defsBelowB]

theorem db_ite (len : Nat) (its : List (Spanned MirF × Spanned MirF))
    (e : Spanned MirF) :
    defsBelowB len (Filter.ite its e) = (defsIteB len its && defsBelowB len e.1) := by
  rcases e with ⟨e, es⟩; simp [defsBelowB]

theorem db_path (len : Nat) (f : Spanned MirF)
    (parts : List (PathPart (Spanned MirF) × Bool)) :
    defsBelowB len (Filter.path f parts) =
      (defsBelowB len f.1 && defsPathB len parts) := by
  rcases f with ⟨f, fs⟩; simp [defsBelowB]

theorem dbo_some (len : Nat) (a : Spanned MirF) :
    defsOptB len (some a) = defsBelowB len a.1 := by
  rcases a with ⟨a, as⟩; simp [defsOptB]

theorem dbl_cons (len : Nat) (a : Spanned MirF) (as : List (Spanned MirF)) :
    defsListB len (a :: as) = (defsBelowB len a.1 && defsListB len as) := by
  rcases a with ⟨a, sp⟩; simp [defsListB]

theorem dbobj_cons (len : Nat) (k : Spanned MirF) (v : Option (Spanned MirF))
    (rest : List (Spanned MirF × Option (Spanned MirF))) :
    defsObjB len ((k, v) :: rest) =
      (defsBelowB len k.1 && defsOptB len v && defsObjB len rest) := by
  rcases k with ⟨k, ks⟩; simp [defsObjB]

theorem dbite_cons (len : Nat) (i t : Spanned MirF)
    (rest : List (Spanned MirF × Spanned MirF)) :
    defsIteB len ((i, t) :: rest) =
      (defsBelowB len i.1 && defsBelowB len t.1 && defsIteB len rest) := by
  rcases i with ⟨i, is⟩; rcases t with ⟨t, ts⟩; simp [defsIteB]

theorem dbpath_index (len : Nat) (i : Spanned MirF) (opt : Bool)
    (rest : List (PathPart (Spanned MirF) × Bool)) :
    defsPathB len ((PathPart.index i, opt) :: rest) =
      (defsBelowB len i.1 && defsPathB len rest) := by
  rcases i with ⟨i, is⟩; simp [defsPathB]

theorem dbpath_range (len : Nat) (lo hi : Option (Spanned MirF)) (opt : Bool)
    (rest : List (PathPart (Spanned MirF) × Bool)) :
    defsPathB len ((PathPart.range lo hi, opt) :: rest) =
      (defsOptB len lo && defsOptB len hi && defsPathB len rest) := by
  simp [defsPathB]

/-- Closure of the definition table: every child identifier recorded anywhere
in it refers into the table. -/
def childrenClosedB (ds : List Def) : Bool :=
  ds.all fun d => d.children.all fun i => decide (i < ds.length)

theorem childrenClosed_lt {ds : List Def} {a i : Nat}
    (h : childrenClosedB ds = true) (hm : i ∈ (getDef ds a).children) :
    i < ds.length := by
  rw [getDef_eq] at hm
  cases hd : ds[a]? with
  | some d =>
    rw [hd] at hm
    simp only [Option.getD_some] at hm
    have hdm : d ∈ ds := List.getElem?_mem hd
    have := (List.all_eq_true.mp h) d hdm
    simpa using (List.all_eq_true.mp this) i hm
  | none =>
    rw [hd] at hm
    simp only [Option.getD_none] at hm
    cases hm

mutual

/-- In a closed table, every definition target produced by the lowering
refers into the table. -/
theorem filter_defs (c : Ctx) (id : Nat) (vars : List String) (f : Spanned HirF)
    (h : childrenClosedB c.defs = true) :
    defsBelowB c.defs.length ((Ctx.filter c id vars f).2.1) = true := by
  match f with
  | (Filter.call name args, sp) =>
    have hargs := filterList_defs c id vars args h
    have hd := (filterList_ext c id vars args).1
    simp only [Ctx.filter]
    split
    next ch heq =>
      rw [hd] at heq
      have hlt : ch < c.defs.length := by
        obtain ⟨a, _, hmem⟩ := resolveCall_defn_mem heq
        exact childrenClosed_lt h hmem
      split
      · split <;>
          (simp only [defsBelowB, callOkB, Bool.and_eq_true, decide_eq_true_eq];
            exact ⟨hlt, hargs⟩)
      · simp only [defsBelowB, callOkB, Bool.and_eq_true, decide_eq_true_eq]
        exact ⟨hlt, hargs⟩
    next i heq =>
      simp only [defsBelowB, callOkB, Bool.and_eq_true]
      exact ⟨trivial, hargs⟩
    next heq =>
      split
      · simp only [defsBelowB, callOkB, Bool.and_eq_true]
        exact ⟨trivial, hargs⟩
      · simp only [defsBelowB]
  | (Filter.var v, sp) =>
    simp only [Ctx.filter]
    split <;> simp only [defsBelowB]
  | (Filter.binary l (BinaryOp.pipe (some x)) r, sp) =>
    simp only [Ctx.filter, db_binary, Bool.and_eq_true]
    refine ⟨filter_defs c id vars l h, ?_⟩
    have hd := (filter_ext c id vars l).1
    have hr := filter_defs (Ctx.filter c id vars l).1 id (vars ++ [x]) r
      (by rwa [hd])
    rwa [hd] at hr
  | (Filter.fold typ xs x init f, sp) =>
    simp only [Ctx.filter, db_fold, Bool.and_eq_true]
    have hd1 := (filter_ext c id vars xs).1
    have h2 := filter_defs (Ctx.filter c id vars xs).1 id vars init (by rwa [hd1])
    rw [hd1] at h2
    have hd2 := (filter_ext (Ctx.filter c id vars xs).1 id vars init).1
    have h3 := filter_defs ((Ctx.filter c id vars xs).1.filter id vars init).1 id
      (vars ++ [x]) f (by rw [hd2, hd1]; exact h)
    rw [hd2, hd1] at h3
    exact ⟨⟨filter_defs c id vars xs h, h2⟩, h3⟩
  | (Filter.id, sp) => simp only [Ctx.filter, defsBelowB]
  | (Filter.num n, sp) =>
    simp only [Ctx.filter]
    split <;> simp only [defsBelowB]
  | (Filter.str s, sp) => simp only [Ctx.filter, defsBelowB]
  | (Filter.array a, sp) =>
    simp only [Ctx.filter, defsBelowB]
    exact filterOpt_defs c id vars a h
  | (Filter.object o, sp) =>
    simp only [Ctx.filter, defsBelowB]
    exact filterObject_defs c id vars o h
  | (Filter.tryF f, sp) =>
    simp only [Ctx.filter, db_tryF]
    exact filter_defs c id vars f h
  | (Filter.neg f, sp) =>
    simp only [Ctx.filter, db_neg]
    exact filter_defs c id vars f h
  | (Filter.recurse, sp) => simp only [Ctx.filter, defsBelowB]
  | (Filter.binary l (BinaryOp.pipe none) r, sp) =>
    simp only [Ctx.filter, db_binary, Bool.and_eq_true]
    refine ⟨filter_defs c id vars l h, ?_⟩
    have hd := (filter_ext c id vars l).1
    have hr := filter_defs (Ctx.filter c id vars l).1 id vars r (by rwa [hd])
    rwa [hd] at hr
  | (Filter.binary l (BinaryOp.op t) r, sp) =>
    simp only [Ctx.filter, db_binary, Bool.and_eq_true]
    refine ⟨filter_defs c id vars l h, ?_⟩
    have hd := (filter_ext c id vars l).1
    have hr := filter_defs (Ctx.filter c id vars l).1 id vars r (by rwa [hd])
    rwa [hd] at hr
  | (Filter.ite its e, sp) =>
    simp only [Ctx.filter, db_ite, Bool.and_eq_true]
    refine ⟨filterIte_defs c id vars its h, ?_⟩
    have hd := (filterIte_ext c id vars its).1
    have hr := filter_defs (Ctx.filterIte c id vars its).1 id vars e (by rwa [hd])
    rwa [hd] at hr
  | (Filter.path f parts, sp) =>
    simp only [Ctx.filter, db_path, Bool.and_eq_true]
    refine ⟨filter_defs c id vars f h, ?_⟩
    have hd := (filter_ext c id vars f).1
    have hr := filterPath_defs (Ctx.filter c id vars f).1 id vars parts (by rwa [hd])
    rwa [hd] at hr
termination_by sizeOf f

theorem filterList_defs (c : Ctx) (id : Nat) (vars : List String)
    (l : List (Spanned HirF)) (h : childrenClosedB c.defs = true) :
    defsListB c.defs.length ((Ctx.filterList c id vars l).2) = true := by
  match l with
  | [] => simp only [Ctx.filterList, defsListB]
  | a :: as =>
    simp only [Ctx.filterList, dbl_cons, Bool.and_eq_true]
    refine ⟨filter_defs c id vars a h, ?_⟩
    have hd := (filter_ext c id vars a).1
    have hr := filterList_defs (Ctx.filter c id vars a).1 id vars as (by rwa [hd])
    rwa [hd] at hr
termination_by sizeOf l

theorem filterOpt_defs (c : Ctx) (id : Nat) (vars : List String)
    (a : Option (Spanned HirF)) (h : childrenClosedB c.defs = true) :
    defsOptB c.defs.length ((Ctx.filterOpt c id vars a).2) = true := by
  match a with
  | none => simp only [Ctx.filterOpt, defsOptB]
  | some x =>
    simp only [Ctx.filterOpt, dbo_some]
    exact filter_defs c id vars x h
termination_by sizeOf a

theorem filterObject_defs (c : Ctx) (id : Nat) (vars : List String)
    (o : List (Spanned HirF × Option (Spanned HirF)))
    (h : childrenClosedB c.defs = true) :
    defsObjB c.defs.length ((Ctx.filterObject c id vars o).2) = true := by
  match o with
  | [] => simp only [Ctx.filterObject, defsObjB]
  | (k, v) :: rest =>
    simp only [Ctx.filterObject, dbobj_cons, Bool.and_eq_true]
    have hd1 := (filter_ext c id vars k).1
    have h2 := filterOpt_defs (Ctx.filter c id vars k).1 id vars v (by rwa [hd1])
    rw [hd1] at h2
    have hd2 := (filterOpt_ext (Ctx.filter c id vars k).1 id vars v).1
    have h3 := filterObject_defs ((Ctx.filter c id vars k).1.filterOpt id vars v).1
      id vars rest (by rw [hd2, hd1]; exact h)
    rw [hd2, hd1] at h3
    exact ⟨⟨filter_defs c id vars k h, h2⟩, h3⟩
termination_by sizeOf o

theorem filterIte_defs (c : Ctx) (id : Nat) (vars : List String)
    (l : List (Spanned HirF × Spanned HirF)) (h : childrenClosedB c.defs = true) :
    defsIteB c.defs.length ((Ctx.filterIte c id vars l).2) = true := by
  match l with
  | [] => simp only [Ctx.filterIte, defsIteB]
  | (i, t) :: rest =>
    simp only [Ctx.filterIte, dbite_cons, Bool.and_eq_true]
    have hd1 := (filter_ext c id vars i).1
    have h2 := filter_defs (Ctx.filter c id vars i).1 id vars t (by rwa [hd1])
    rw [hd1] at h2
    have hd2 := (filter_ext (Ctx.filter c id vars i).1 id vars t).1
    have h3 := filterIte_defs ((Ctx.filter c id vars i).1.filter id vars t).1
      id vars rest (by rw [hd2, hd1]; exact h)
    rw [hd2, hd1] at h3
    exact ⟨⟨filter_defs c id vars i h, h2⟩, h3⟩
termination_by sizeOf l

theorem filterPath_defs (c : Ctx) (id : Nat) (vars : List String)
    (l : List (PathPart (Spanned HirF) × Bool)) (h : childrenClosedB c.defs = true) :
    defsPathB c.defs.length ((Ctx.filterPath c id vars l).2) = true := by
  match l with
  | [] => simp only [Ctx.filterPath, defsPathB]
  | (PathPart.index i, opt) :: rest =>
    simp only [Ctx.filterPath, dbpath_index, Bool.and_eq_true]
    have hd1 := (filter_ext c id vars i).1
    have h2 := filterPath_defs (Ctx.filter c id vars i).1 id vars rest (by rwa [hd1])
    rw [hd1] at h2
    exact ⟨filter_defs c id vars i h, h2⟩
  | (PathPart.range lo hi, opt) :: rest =>
    simp only [Ctx.filterPath, dbpath_range, Bool.and_eq_true]
    have hd1 := (filterOpt_ext c id vars lo).1
    have h2 := filterOpt_defs (Ctx.filterOpt c id vars lo).1 id vars hi (by rwa [hd1])
    rw [hd1] at h2
    have hd2 := (filterOpt_ext (Ctx.filterOpt c id vars lo).1 id vars hi).1
    have h3 := filterPath_defs ((Ctx.filterOpt c id vars lo).1.filterOpt id vars hi).1
      id vars rest (by rw [hd2, hd1]; exact h)
    rw [hd2, hd1] at h3
    exact ⟨⟨filterOpt_defs c id vars lo h, h2⟩, h3⟩
termination_by sizeOf l

end

theorem filter_defsEq (c : Ctx) (id : Nat) (vars : List String) (f : Spanned HirF) :
    (Ctx.filter c id vars f).1.defs = c.defs := (filter_ext c id vars f).1

theorem filter_nativeEq (c : Ctx) (id : Nat) (vars : List String) (f : Spanned HirF) :
    (Ctx.filter c id vars f).1.native = c.native := (filter_ext c id vars f).2.1

theorem filterList_defsEq (c : Ctx) (id : Nat) (vars : List String)
    (l : List (Spanned HirF)) :
    (Ctx.filterList c id vars l).1.defs = c.defs := (filterList_ext c id vars l).1

theorem filterList_nativeEq (c : Ctx) (id : Nat) (vars : List String)
    (l : List (Spanned HirF)) :
    (Ctx.filterList c id vars l).1.native = c.native :=
  (filterList_ext c id vars l).2.1

/-- C7: lowering is total: `Ctx.filter` is a total Lean function producing a
spanned MIR expression for every HIR expression and scope (no partiality is
involved in its definition); errors never interrupt it: the definition table
and native registry are untouched, the diagnostic list and the recursion set
are only appended to, and the result carries the span of the input. -/
theorem c7_lowering_total (c : Ctx) (id : Nat) (vars : List String)
    (f : Spanned HirF) :
    (Ctx.filter c id vars f).1.defs = c.defs ∧
    (Ctx.filter c id vars f).1.native = c.native ∧
    (∃ E, (Ctx.filter c id vars f).1.errs = c.errs ++ E) ∧
    (∃ R, (Ctx.filter c id vars f).1.recs = c.recs ++ R) ∧
    (Ctx.filter c id vars f).2.2 = f.2 := by
  obtain ⟨a, b, e, r⟩ := filter_ext c id vars f
  exact ⟨a, b, e, r, filter_span c id vars f⟩

/-- C5: sibling shadowing: the scan of one ancestor's children returns the
LAST matching child in declaration order (the children list is scanned in
reverse), so among two sibling definitions of equal name and arity a call
resolving among this parent's children resolves to the later one; moreover a
match found at an ancestor is what the ancestor walk returns for that
ancestor. -/
theorem c5_sibling_shadowing :
    (∀ (ds : List Def) (name : String) (arity : Nat) (children : List Nat),
      findChild ds name arity children =
        (children.filter (isMatch ds name arity)).getLast?) ∧
    (∀ (ds : List Def) (name : String) (arity a : Nat) (rest : List Nat) (ch : Nat),
      findChild ds name arity (getDef ds a).children = some ch →
      resolveCall ds name arity (a :: rest) = some (Resolved.defn ch)) :=
  ⟨findChild_getLast, fun _ _ _ _ _ _ h => resolveCall_head h⟩

/-- A small table with two sibling definitions of f at the root, the second
declared later; used to witness C5. -/
def c5tbl : List Def :=
  [⟨"", [], [1, 2], [], false, (Filter.id, (0, 0))⟩,
   ⟨"f", [], [], [0], false, (Filter.id, (0, 0))⟩,
   ⟨"f", [], [], [0], false, (Filter.id, (0, 0))⟩]

theorem c5_sibling_shadowing_witness :
    findChild c5tbl "f" 0 (getDef c5tbl 0).children = some 2 ∧
    resolveCall c5tbl "f" 0 [0] = some (Resolved.defn 2) := by
  have h1 : findChild c5tbl "f" 0 (getDef c5tbl 0).children = some 2 := by
    rw [c5_sibling_shadowing.1]
    decide
  exact ⟨h1, c5_sibling_shadowing.2 c5tbl "f" 0 0 [] 2 h1⟩

/-- The HIR of (. as $x | (. as $y | $y)), used as the C2 counterexample. -/
def c2hir : Spanned HirF :=
  (Filter.binary (Filter.id, (0, 2)) (BinaryOp.pipe (some "x"))
    (Filter.binary (Filter.id, (5, 7)) (BinaryOp.pipe (some "y"))
      (Filter.var "y", (10, 12)), (5, 12)), (0, 12))

/-- C2 counterexample: with no globals, in (. as $x | (. as $y | $y)) the
reference $y matches the rightmost (innermost) binder y of the stack
[x, y], yet the produced position is 1, not 0: the produced position is the
index counted from the OUTERMOST end of the stack, so position 0 denotes the
outermost binder, contradicting the claim that position 0 denotes the
innermost binder. -/
theorem c2_counterexample :
    (Ctx.filter (Ctx.new []) 0 [] c2hir).2.1 =
      Filter.binary (Filter.id, (0, 2)) (BinaryOp.pipe (some "x"))
        (Filter.binary (Filter.id, (5, 7)) (BinaryOp.pipe (some "y"))
          (Filter.var 1, (10, 12)), (5, 12)) ∧
    (1 : Nat) ≠ 0 := by
  constructor
  · simp [c2hir, Ctx.filter, Ctx.new, Defs.new, argsInScope, ancestorsAndMe,
      getDef, rposition]
  · decide

/-- C2 amended: for a Var(name) reference matching some binder, the produced
position is the index, counted from the start (outermost end) of the
concatenated stack of value parameters in scope followed by in-body
variables, of the rightmost matching binder: the binder chosen is the
rightmost match, and position 0 denotes the outermost binder rather than the
innermost one. -/
theorem c2_var_positions (c : Ctx) (id : Nat) (vars : List String) (v : String)
    (sp : Span) (i : Nat)
    (h : rposition v ((argsInScope c.defs id).filterMap Arg.getVar ++ vars) =
      some i) :
    Ctx.filter c id vars (Filter.var v, sp) = (c, (Filter.var i, sp)) ∧
    ((argsInScope c.defs id).filterMap Arg.getVar ++ vars)[i]? = some v ∧
    ∀ j, i < j →
      ((argsInScope c.defs id).filterMap Arg.getVar ++ vars)[j]? ≠ some v := by
  refine ⟨?_, rposition_get h, rposition_rightmost h⟩
  simp only [Ctx.filter, h]

theorem c2_var_positions_witness :
    Ctx.filter (Ctx.new []) 0 ["x", "y"] (Filter.var "y", (0, 1)) =
      (Ctx.new [], (Filter.var 1, (0, 1))) := by
  have h : rposition "y"
      ((argsInScope (Ctx.new []).defs 0).filterMap Arg.getVar ++ ["x", "y"]) =
        some 1 := by
    decide
  exact (c2_var_positions (Ctx.new []) 0 ["x", "y"] "y" (0, 1) 1 h).1

/-- C6 counterexample: at the root with no globals and an empty in-body
stack, the unresolved reference $x lowers to Var(0), while the bound claimed
universally (value parameters in scope plus in-body variables) is 0, and
0 < 0 fails. -/
theorem c6_counterexample :
    (Ctx.filter (Ctx.new []) 0 [] (Filter.var "x", (0, 2))).2.1 = Filter.var 0 ∧
    stackLen (Ctx.new []).defs 0 [] = 0 ∧
    ¬(0 < stackLen (Ctx.new []).defs 0 []) := by
  refine ⟨?_, by decide, by decide⟩
  simp [Ctx.filter, Ctx.new, Defs.new, argsInScope, ancestorsAndMe, getDef,
    rposition, pushErr]

/-- C6 amended: for every Var(k) anywhere in the lowered result, k is
strictly below max 1 (value parameters in scope + in-body variables at the
point): the claimed bound holds whenever at least one binder is visible, and
the position-0 substitution for an unresolved name is additionally allowed
when the stack is empty (where the claimed bound k < 0 is unsatisfiable). -/
theorem c6_var_bound (c : Ctx) (id : Nat) (vars : List String)
    (f : Spanned HirF) :
    varsBelowB (stackLen c.defs id vars) ((Ctx.filter c id vars f).2.1) = true :=
  filter_vars c id vars f

/-- The first element satisfying the predicate after a prefix of failures is
what a first-match search returns. -/
theorem find?_first {α : Type} (p : α → Bool) :
    ∀ (pre : List α) (x : α) (post : List α),
      (∀ a ∈ pre, p a = false) → p x = true →
      (pre ++ x :: post).find? p = some x := by
  intro pre
  induction pre with
  | nil => intro x post _ hx; simp [List.find?_cons_of_pos _ hx]
  | cons b bs ih =>
    intro x post hpre hx
    have hb : p b = false := hpre b (by simp)
    rw [List.cons_append, List.find?_cons_of_neg _ (by simp [hb])]
    exact ih x post (fun a ha => hpre a (by simp [ha])) hx

/-- C3: when no ancestor resolves a call, the native registry is searched
and the FIRST registration matching both the name and the argument count is
emitted as a native call with the lowered arguments; when none matches
either, the "could not find function" error carrying the call span is
appended after the argument errors and the whole call lowers to Identity,
discarding the lowered arguments. -/
theorem c3_native_fallback (c : Ctx) (id : Nat) (vars : List String)
    (name : String) (args : List (Spanned HirF)) (sp : Span)
    (hres : resolveCall c.defs name args.length (ancestorsAndMe c.defs id) = none) :
    (∀ (pre : List (String × Nat × Nat)) (h : Nat) (post : List (String × Nat × Nat)),
      c.native = pre ++ (name, args.length, h) :: post →
      (∀ e ∈ pre, ¬(e.1 = name ∧ e.2.1 = args.length)) →
      Ctx.filter c id vars (Filter.call name args, sp) =
        ((Ctx.filterList c id vars args).1,
          (Filter.call (Call.native h) (Ctx.filterList c id vars args).2, sp))) ∧
    ((∀ e ∈ c.native, ¬(e.1 = name ∧ e.2.1 = args.length)) →
      Ctx.filter c id vars (Filter.call name args, sp) =
        (pushErr (Ctx.filterList c id vars args).1 sp "could not find function",
          (Filter.id, sp))) := by
  have hd := filterList_defsEq c id vars args
  have hnat := filterList_nativeEq c id vars args
  have hlen := filterList_length id vars args c
  constructor
  · intro pre h post hn hpre
    simp only [Ctx.filter, hd, hlen, hres, hnat, hn]
    rw [find?_first _ pre (name, args.length, h) post ?hpre ?hx]
    case hpre =>
      intro a ha
      have hcon := hpre a ha
      rw [Bool.eq_false_iff]
      intro hc
      exact hcon (by simpa [Bool.and_eq_true, beq_iff_eq] using hc)
    case hx => simp
  · intro hall
    simp only [Ctx.filter, hd, hlen, hres, hnat]
    rw [List.find?_eq_none.mpr ?hnone]
    case hnone =>
      intro e he
      have hcon := hall e he
      simp only [Bool.and_eq_true, beq_iff_eq, not_and]
      intro h1 h2
      exact hcon ⟨h1, h2⟩

/-- A context with three native registrations, two of which collide on name
and arity; used to witness C3. -/
def c3ctx : Ctx :=
  { Ctx.new [] with native := [("x", 0, 5), ("h", 0, 7), ("h", 0, 9)] }

theorem c3_native_fallback_witness :
    Ctx.filter c3ctx 0 [] (Filter.call "h" [], (0, 1)) =
      (c3ctx, (Filter.call (Call.native 7) [], (0, 1))) ∧
    Ctx.filter c3ctx 0 [] (Filter.call "nope" [], (2, 3)) =
      (pushErr c3ctx (2, 3) "could not find function", (Filter.id, (2, 3))) := by
  constructor
  · have := (c3_native_fallback c3ctx 0 [] "h" [] (0, 1) (by decide)).1
      [("x", 0, 5)] 7 [("h", 0, 9)] (by decide) (by decide)
    simpa [Ctx.filterList] using this
  · have := (c3_native_fallback c3ctx 0 [] "nope" [] (2, 3) (by decide)).2
      (by decide)
    simpa [Ctx.filterList] using this

/-- C9: a number literal whose text has none of the characters period, e, E
is parsed as a 64-bit signed integer, any other as a double; on a parse
failure the error matching the attempted kind is emitted at the literal span
and the literal lowers to the zero of that kind. -/
theorem c9_number_literals (c : Ctx) (id : Nat) (vars : List String) (s : String)
    (sp : Span) :
    (∀ i, hasFloatChars s = false → parseIsize s = some i →
      Ctx.filter c id vars (Filter.num s, sp) = (c, (Filter.num (Num.int i), sp))) ∧
    (hasFloatChars s = false → parseIsize s = none →
      Ctx.filter c id vars (Filter.num s, sp) =
        (pushErr c sp "cannot interpret as machine-size integer",
          (Filter.num (Num.int 0), sp))) ∧
    (∀ v, hasFloatChars s = true → parseF64 s = some v →
      Ctx.filter c id vars (Filter.num s, sp) =
        (c, (Filter.num (Num.float v), sp))) ∧
    (hasFloatChars s = true → parseF64 s = none →
      Ctx.filter c id vars (Filter.num s, sp) =
        (pushErr c sp "cannot interpret as floating-point number",
          (Filter.num (Num.float F64.zero), sp))) := by
  refine ⟨?_, ?_, ?_, ?_⟩
  · intro i h1 h2
    have hp : Num.parse s = Except.ok (Num.int i) := by simp [Num.parse, h1, h2]
    simp only [Ctx.filter, hp]
  · intro h1 h2
    have hp : Num.parse s = Except.error (Num.int 0) := by simp [Num.parse, h1, h2]
    simp only [Ctx.filter, hp]
  · intro v h1 h2
    have hp : Num.parse s = Except.ok (Num.float v) := by simp [Num.parse, h1, h2]
    simp only [Ctx.filter, hp]
  · intro h1 h2
    have hp : Num.parse s = Except.error (Num.float F64.zero) := by
      simp [Num.parse, h1, h2]
    simp only [Ctx.filter, hp]

theorem c9_number_literals_witness :
    Ctx.filter (Ctx.new []) 0 [] (Filter.num "12", (0, 2)) =
      (Ctx.new [], (Filter.num (Num.int 12), (0, 2))) ∧
    Ctx.filter (Ctx.new []) 0 [] (Filter.num "99999999999999999999", (0, 20)) =
      (pushErr (Ctx.new []) (0, 20) "cannot interpret as machine-size integer",
        (Filter.num (Num.int 0), (0, 20))) ∧
    Ctx.filter (Ctx.new []) 0 [] (Filter.num "1.5", (0, 3)) =
      (Ctx.new [], (Filter.num (Num.float (F64.ofLit "1.5")), (0, 3))) ∧
    Ctx.filter (Ctx.new []) 0 [] (Filter.num "1e", (0, 2)) =
      (pushErr (Ctx.new []) (0, 2) "cannot interpret as floating-point number",
        (Filter.num (Num.float F64.zero), (0, 2))) :=
  ⟨(c9_number_literals (Ctx.new []) 0 [] "12" (0, 2)).1 12 (by decide) (by decide),
   (c9_number_literals (Ctx.new []) 0 [] "99999999999999999999" (0, 20)).2.1
     (by decide) (by decide),
   (c9_number_literals (Ctx.new []) 0 [] "1.5" (0, 3)).2.2.1 (F64.ofLit "1.5")
     (by decide) (by decide),
   (c9_number_literals (Ctx.new []) 0 [] "1e" (0, 2)).2.2.2 (by decide) (by decide)⟩

/-- C8 counterexample: lowering the call nosuch($x) at the root with no
globals and no natives: the error of the enclosed variable node (span
(3, 5)) is emitted FIRST and the error of the enclosing call node (span
(0, 10)) second, refuting the claim that an enclosing node's error precedes
the errors of the nodes it encloses. -/
theorem c8_counterexample :
    (Ctx.filter (Ctx.new []) 0 []
        (Filter.call "nosuch" [(Filter.var "x", (3, 5))], (0, 10))).1.errs =
      [((3, 5), "undefined variable"), ((0, 10), "could not find function")] ∧
    ((0, 10) : Span) ≠ ((3, 5) : Span) := by
  constructor
  · simp [Ctx.filter, Ctx.filterList, Ctx.new, Defs.new, argsInScope,
      ancestorsAndMe, getDef, rposition, pushErr, resolveCall, findChild,
      isMatch, nonvarArgPosition]
  · decide

/-- C8 amended: error emission is depth-first with each node's own error
emitted AFTER the errors of its sub-expressions (post-order): the diagnostic
list is append-only, a call's arguments are lowered left to right before the
call itself is resolved, and the call's own contribution (at most one error,
carrying the call's span) is appended after all argument errors. -/
theorem c8_error_order :
    (∀ (c : Ctx) (id : Nat) (vars : List String) (f : Spanned HirF),
      ∃ E, (Ctx.filter c id vars f).1.errs = c.errs ++ E) ∧
    (∀ (c : Ctx) (id : Nat) (vars : List String) (a : Spanned HirF)
       (as : List (Spanned HirF)),
      Ctx.filterList c id vars (a :: as) =
        ((Ctx.filterList (Ctx.filter c id vars a).1 id vars as).1,
          (Ctx.filter c id vars a).2 ::
            (Ctx.filterList (Ctx.filter c id vars a).1 id vars as).2)) ∧
    (∀ (c : Ctx) (id : Nat) (vars : List String) (name : String)
       (args : List (Spanned HirF)) (sp : Span),
      ∃ own,
        (Ctx.filter c id vars (Filter.call name args, sp)).1.errs =
          (Ctx.filterList c id vars args).1.errs ++ own ∧
        (own = [] ∨ own = [(sp, "could not find function")] ∨
          own = [(sp,
            "attempting to recursively call filter with non-variable argument")])) := by
  refine ⟨fun c id vars f => (filter_ext c id vars f).2.2.1, ?_, ?_⟩
  · intro c id vars a as
    simp only [Ctx.filterList]
  · intro c id vars name args sp
    simp only [Ctx.filter]
    split
    · split
      · split
        · exact ⟨_, by simp [pushErr], Or.inr (Or.inr rfl)⟩
        · exact ⟨[], by simp, Or.inl rfl⟩
      · exact ⟨[], by simp, Or.inl rfl⟩
    · exact ⟨[], by simp, Or.inl rfl⟩
    · split
      · exact ⟨[], by simp, Or.inl rfl⟩
      · exact ⟨_, by simp [pushErr], Or.inr (Or.inl rfl)⟩

/-- C4: a call resolving to a definition ch that is an ancestor of (or equal
to) the calling definition is a recursive call: the error about recursively
calling a filter with a non-variable argument is appended (after the
argument errors, at the call span) if and only if ch declares at least one
filter parameter; ch is appended to the recursion set in every recursive
case; the MIR still contains the call with its lowered arguments; and after
root_def returns, every in-range member of the recursion set has its
recursive flag set. -/
theorem c4_recursive_calls :
    (∀ (c : Ctx) (id : Nat) (vars : List String) (name : String)
       (args : List (Spanned HirF)) (sp : Span) (ch : Nat),
      resolveCall c.defs name args.length (ancestorsAndMe c.defs id) =
        some (Resolved.defn ch) →
      ch ∈ ancestorsAndMe c.defs id →
      Ctx.filter c id vars (Filter.call name args, sp) =
        ({ errs := (Ctx.filterList c id vars args).1.errs ++
             (if (getDef c.defs ch).args.any (fun a => !a.isVar) then
               [(sp,
                 "attempting to recursively call filter with non-variable argument")]
              else []),
           recs := (Ctx.filterList c id vars args).1.recs ++ [ch],
           defs := c.defs, native := c.native },
          (Filter.call (Call.defn ch) (Ctx.filterList c id vars args).2, sp))) ∧
    (∀ (c : Ctx) (d : PDef) (x : Nat),
      x ∈ (Ctx.rootDef c d).recs → x < (Ctx.rootDef c d).defs.length →
      (getDef (Ctx.rootDef c d).defs x).recursive = true) := by
  constructor
  · intro c id vars name args sp ch h1 h2
    have hd := filterList_defsEq c id vars args
    have hnat := filterList_nativeEq c id vars args
    have hlen := filterList_length id vars args c
    have hc : (ancestorsAndMe c.defs id).contains ch = true := by simp [h2]
    simp only [Ctx.filter, hd, hlen, h1, hc, if_true]
    split
    next hany => simp [pushErr, hd, hnat]
    next hany => simp [hd, hnat]
  · intro c d x hmem hlt
    simp only [Ctx.rootDef] at hmem hlt ⊢
    rw [markRecs_length] at hlt
    exact markRecs_recursive x _ _ hmem hlt

/-- A table with the root and a definition r with one filter parameter f;
used to witness the recursive-call behaviour of C4. -/
def c4tbl : List Def :=
  [⟨"", [], [1], [], false, (Filter.id, (0, 0))⟩,
   ⟨"r", [⟨"f", false⟩], [], [0], false, (Filter.id, (0, 0))⟩]

/-- The context of the program (def r(f): r(.)) after root_def; used to
witness the recursion finaliser of C4. -/
def c4ctx : Ctx :=
  Ctx.rootDef (Ctx.new [])
    (PDef.mk "r" [⟨"f", false⟩] []
      (Filter.call "r" [(Filter.id, (10, 11))], (8, 12)))

theorem c4_recursive_calls_witness :
    Ctx.filter (⟨[], [], c4tbl, []⟩ : Ctx) 1 []
        (Filter.call "r" [(Filter.id, (10, 11))], (8, 12)) =
      (⟨[((8, 12),
          "attempting to recursively call filter with non-variable argument")],
        [1], c4tbl, []⟩,
        (Filter.call (Call.defn 1) [(Filter.id, (10, 11))], (8, 12))) ∧
    (getDef c4ctx.defs 1).recursive = true := by
  constructor
  · have := c4_recursive_calls.1 (⟨[], [], c4tbl, []⟩ : Ctx) 1 [] "r"
      [(Filter.id, (10, 11))] (8, 12) 1 (by decide) (by decide)
    simpa [Ctx.filterList, Ctx.filter, c4tbl, getDef] using this
  · apply c4_recursive_calls.2 (Ctx.new [])
      (PDef.mk "r" [⟨"f", false⟩] []
        (Filter.call "r" [(Filter.id, (10, 11))], (8, 12))) 1
    · show 1 ∈ (Ctx.rootDef _ _).recs
      simp [Ctx.rootDef, Ctx.defn, Ctx.defnList, Ctx.filter, Ctx.filterList,
        Ctx.new, Defs.new, resolveCall, findChild, isMatch, getDef,
        ancestorsAndMe, pushErr, markRecs]
    · show 1 < (Ctx.rootDef _ _).defs.length
      simp [Ctx.rootDef, Ctx.defn, Ctx.defnList, Ctx.filter, Ctx.filterList,
        Ctx.new, Defs.new, resolveCall, findChild, isMatch, getDef,
        ancestorsAndMe, pushErr, markRecs, markRecs_length]

/-- The context of the program (def f: 0; def g: (def f: 1; f)) with no
globals: identifiers are root 0, outer f 1, g 2, inner f 3; used as the C1
counterexample and witness. -/
def c1ctx : Ctx :=
  Ctx.insertDefs (Ctx.new [])
    [PDef.mk "f" [] [] (Filter.num "0", (4, 5)),
     PDef.mk "g" [] [PDef.mk "f" [] []
       (Filter.num "1", (20, 21))] (Filter.call "f" [], (23, 24))]

/-- C1 counterexample: in (def f: 0; def g: (def f: 1; f)), the walk for the
call f inside the body of g has ancestors [0, 2]: the inner ancestor 2 (g
itself) has the matching child 3 (the inner f) and the outer ancestor 0 (the
root) has the matching child 1 (the outer f); the call resolves to 1, the
OUTER ancestor's child, and not to the inner ancestor's child 3, refuting
the claim that inner ancestors' children are consulted first. -/
theorem c1_counterexample :
    ancestorsAndMe c1ctx.defs 2 = [0, 2] ∧
    3 ∈ (getDef c1ctx.defs 2).children ∧ isMatch c1ctx.defs "f" 0 3 = true ∧
    1 ∈ (getDef c1ctx.defs 0).children ∧ isMatch c1ctx.defs "f" 0 1 = true ∧
    (getDef c1ctx.defs 2).body.1 = Filter.call (Call.defn 1) [] ∧
    (1 : Nat) ≠ 3 := by
  have hd : c1ctx.defs =
      [⟨"", [], [1, 2], [], false, (Filter.id, (0, 0))⟩,
       ⟨"f", [], [], [0], false, (Filter.num (Num.int 0), (4, 5))⟩,
       ⟨"g", [], [3], [0], false, (Filter.call (Call.defn 1) [], (23, 24))⟩,
       ⟨"f", [], [], [0, 2], false, (Filter.num (Num.int 1), (20, 21))⟩] := by
    simp [c1ctx, Ctx.insertDefs, Ctx.rootDef, Ctx.defn, Ctx.defnList,
      Ctx.filter, Ctx.filterList, Ctx.new, Defs.new, resolveCall, findChild,
      isMatch, getDef, ancestorsAndMe, nonvarArgPosition, rposition, pushErr,
      markRecs, Num.parse, hasFloatChars, parseIsize, digitsToNat, isDigit]
  rw [hd]
  refine ⟨by decide, by decide, by decide, by decide, by decide, ?_, by decide⟩
  rfl

/-- C1 amended: the ancestor walk consults ancestors OUTERMOST-first:
ancestors_and_self lists the ancestors root-first followed by the definition
itself, and the call resolves to the matching child of the FIRST ancestor in
that order offering one (earlier ancestors with neither a matching child nor
a matching nullary filter parameter are skipped); hence when both an inner
and an outer ancestor have a matching child, the call resolves to the
OUTERMOST ancestor's child. -/
theorem c1_resolution_order :
    (∀ (ds : List Def) (i : Nat),
      ancestorsAndMe ds i = (getDef ds i).ancestors ++ [i]) ∧
    (∀ (ds : List Def) (name : String) (arity : Nat) (pre : List Nat)
       (a : Nat) (rest : List Nat) (ch : Nat),
      (∀ b ∈ pre, findChild ds name arity (getDef ds b).children = none ∧
        (arity = 0 → nonvarArgPosition ds b name = none)) →
      findChild ds name arity (getDef ds a).children = some ch →
      resolveCall ds name arity (pre ++ a :: rest) = some (Resolved.defn ch)) :=
  ⟨fun _ _ => rfl,
   fun _ _ _ _ _ _ _ hpre h => resolveCall_found hpre h⟩

theorem c1_resolution_order_witness :
    resolveCall c1ctx.defs "f" 0 [0, 2] = some (Resolved.defn 1) := by
  have hd : c1ctx.defs =
      [⟨"", [], [1, 2], [], false, (Filter.id, (0, 0))⟩,
       ⟨"f", [], [], [0], false, (Filter.num (Num.int 0), (4, 5))⟩,
       ⟨"g", [], [3], [0], false, (Filter.call (Call.defn 1) [], (23, 24))⟩,
       ⟨"f", [], [], [0, 2], false, (Filter.num (Num.int 1), (20, 21))⟩] := by
    simp [c1ctx, Ctx.insertDefs, Ctx.rootDef, Ctx.defn, Ctx.defnList,
      Ctx.filter, Ctx.filterList, Ctx.new, Defs.new, resolveCall, findChild,
      isMatch, getDef, ancestorsAndMe, nonvarArgPosition, rposition, pushErr,
      markRecs, Num.parse, hasFloatChars, parseIsize, digitsToNat, isDigit]
  rw [hd]
  exact c1_resolution_order.2 _ "f" 0 [] 0 [2] 1 (by simp) (by decide)

/-- The context of the program (def p: def s1: s2; def s2: 2; s2) with no
globals and no natives: identifiers are root 0, p 1, s1 2, s2 3; s1's body
calls the later sibling s2, the parent's own body calls s2 as well; used for
the closed conjuncts of C10. -/
def c10ctx : Ctx :=
  Ctx.rootDef (Ctx.new [])
    (PDef.mk "p" []
      [PDef.mk "s1" [] [] (Filter.call "s2" [], (5, 6)),
       PDef.mk "s2" [] [] (Filter.num "2", (8, 9))]
      (Filter.call "s2" [], (11, 12)))

/-- C10: for a parent definition with exactly two leaf nested siblings s1
(declared first) and s2, inserted as a root definition into a fresh context
with arbitrary globals and natives: s1 receives id 2 and s2 id 3, and s1's
lowered body contains only definition targets BELOW 3 — s1's body is lowered
before s2 is registered, so no call in it can resolve to Def(3) = s2;
concretely (program def p: def s1: s2; def s2: 2; s2), s1's body lowers to
Identity with a "could not find function" error at its call span, while the
parent's own body, lowered after both siblings are registered, resolves the
same call to Def(3). -/
theorem c10_sibling_forward_refs :
    (∀ (g : List String) (nv : List (String × Nat × Nat)) (pn n1 n2 : String)
       (pa a1 a2 : List Arg) (pb b1 b2 : Spanned HirF),
      defsBelowB 3
        ((getDef (Ctx.rootDef { Ctx.new g with native := nv }
          (PDef.mk pn pa [PDef.mk n1 a1 [] b1, PDef.mk n2 a2 [] b2] pb)).defs
            2).body.1) = true) ∧
    (getDef c10ctx.defs 2).body.1 = Filter.id ∧
    c10ctx.errs = [((5, 6), "could not find function")] ∧
    (getDef c10ctx.defs 1).body.1 = Filter.call (Call.defn 3) [] := by
  refine ⟨?_, ?_⟩
  · intro g nv pn n1 n2 pa a1 a2 pb b1 b2
    have hbody : (getDef (Ctx.rootDef { Ctx.new g with native := nv }
        (PDef.mk pn pa [PDef.mk n1 a1 [] b1, PDef.mk n2 a2 [] b2] pb)).defs
          2).body.1 =
        (Ctx.filter (⟨[], [],
          [⟨"", List.map Arg.newVar g, [1], [], false, (Filter.id, (0, 0))⟩,
           ⟨pn, pa, [2], [0], false, (Filter.id, (0, 0))⟩,
           ⟨n1, a1, [], [0, 1], false, (Filter.id, (0, 0))⟩], nv⟩ : Ctx)
          2 [] b1).2.1 := by
      simp [Ctx.rootDef, Ctx.defn, Ctx.defnList, Ctx.new, Defs.new, getDef,
        filter_defsEq, filter_nativeEq, markRecs_bodyE]
    rw [hbody]
    have key := filter_defs (⟨[], [],
      [⟨"", List.map Arg.newVar g, [1], [], false, (Filter.id, (0, 0))⟩,
       ⟨pn, pa, [2], [0], false, (Filter.id, (0, 0))⟩,
       ⟨n1, a1, [], [0, 1], false, (Filter.id, (0, 0))⟩], nv⟩ : Ctx)
      2 [] b1 (by simp [childrenClosedB])
    simpa using key
  · have hd : c10ctx.defs =
        [⟨"", [], [1], [], false, (Filter.id, (0, 0))⟩,
         ⟨"p", [], [2, 3], [0], false, (Filter.call (Call.defn 3) [], (11, 12))⟩,
         ⟨"s1", [], [], [0, 1], false, (Filter.id, (5, 6))⟩,
         ⟨"s2", [], [], [0, 1], false, (Filter.num (Num.int 2), (8, 9))⟩] ∧
        c10ctx.errs = [((5, 6), "could not find function")] := by
      constructor <;>
        simp [c10ctx, Ctx.rootDef, Ctx.defn, Ctx.defnList, Ctx.filter,
          Ctx.filterList, Ctx.new, Defs.new, resolveCall, findChild, isMatch,
          getDef, ancestorsAndMe, nonvarArgPosition, rposition, pushErr,
          markRecs, Num.parse, hasFloatChars, parseIsize, digitsToNat, isDigit]
    refine ⟨?_, hd.2, ?_⟩ <;> rw [hd.1] <;> rfl

end Jaq
